import Mathlib

/-!
Verification of the index-translation and diagnostics subsystem of a
wasm regex utility (`src/strops.rs`, `src/error.rs`, `src/lib.rs`).

Strings are modelled as `List Char` (a Rust `&str` is a sequence of
unicode scalar values); byte offsets are recovered through the UTF-8
length of each scalar.  Functions that can panic in Rust return an
`Option`, with `none` modelling the panic.
-/

/-- UTF-8 encoded length of one scalar value (Rust `char::len_utf8`). -/
def charLenUtf8 (c : Char) : Nat :=
  if c.toNat < 0x80 then 1
  else if c.toNat < 0x800 then 2
  else if c.toNat < 0x10000 then 3
  else 4

/-- UTF-16 encoded length of one scalar value (Rust `char::len_utf16`). -/
def charLenUtf16 (c : Char) : Nat :=
  if c.toNat < 0x10000 then 1 else 2

/-- Byte length of a string (Rust `str::len`). -/
def byteLen (s : List Char) : Nat := (s.map charLenUtf8).sum

/-- UTF-16 code-unit length of a string. -/
def utf16Len (s : List Char) : Nat := (s.map charLenUtf16).sum

/-- The characters of the byte-prefix `s[..i]`: `some` iff `i` is a
code-point boundary of `s` (including `i = byteLen s`); `none` models the
panic of Rust byte-slicing a `str` at a non-boundary. -/
def takeBytes : List Char → Nat → Option (List Char)
  | _, 0 => some []
  | [], _ + 1 => none
  | c :: cs, i + 1 =>
    if charLenUtf8 c ≤ i + 1 then (takeBytes cs (i + 1 - charLenUtf8 c)).map (c :: ·)
    else none

/-- `i` is a code-point boundary of `s` (`0 ≤ i ≤ byteLen s`, not interior
to a scalar's encoding). -/
def IsBoundary (s : List Char) (i : Nat) : Prop := (takeBytes s i).isSome

instance (s : List Char) (i : Nat) : Decidable (IsBoundary s i) := by
  unfold IsBoundary; infer_instance

/-- UTF-16 offset of the start of the code point containing byte `i`
(equals the UTF-16 length of `s[..i]` when `i` is a boundary; equals
`utf16Len s` when `i ≥ byteLen s`). -/
def u16Floor : List Char → Nat → Nat
  | [], _ => 0
  | c :: cs, i =>
    if i < charLenUtf8 c then 0
    else charLenUtf16 c + u16Floor cs (i - charLenUtf8 c)

/-- UTF-16 offset of the least code-point boundary at or after byte `i`
(capped at `utf16Len s`). -/
def u16Ceil : List Char → Nat → Nat
  | [], _ => 0
  | c :: cs, i =>
    if i = 0 then 0
    else if i ≤ charLenUtf8 c then charLenUtf16 c
    else charLenUtf16 c + u16Ceil cs (i - charLenUtf8 c)

/-- Least code-point boundary at or after byte `i` (capped at `byteLen s`). -/
def nextBoundary : List Char → Nat → Nat
  | [], _ => 0
  | c :: cs, i =>
    if i = 0 then 0
    else if i ≤ charLenUtf8 c then charLenUtf8 c
    else charLenUtf8 c + nextBoundary cs (i - charLenUtf8 c)

/-! ### The byte→UTF-16 batch translator, `strops.rs::utf16_index_bytes_slice`

The source sorts and de-duplicates the query offsets, then walks a
`char_indices`-derived iterator producing `(byte_idx, utf8_len, running
utf16 offset before the char)` triples, consuming it monotonically. -/

/-- The elements produced by the source's `char_iter`: for each scalar,
`(byte index, utf8 length, running utf16 offset before it)`.  `b`/`u` are
the byte/utf16 offsets of the start of `s`. -/
def charEntries : List Char → Nat → Nat → List (Nat × Nat × Nat)
  | [], _, _ => []
  | c :: cs, b, u => (b, charLenUtf8 c, u) :: charEntries cs (b + charLenUtf8 c) (u + charLenUtf16 c)

/-- `Iterator::find` over the remaining entries: first entry whose byte
index is `≥ q`, together with the entries after it (the iterator is
consumed up to and including the found element). -/
def findEntry : List (Nat × Nat × Nat) → Nat → Option ((Nat × Nat × Nat) × List (Nat × Nat × Nat))
  | [], _ => none
  | e :: es, q => if q ≤ e.1 then some (e, es) else findEntry es q

/-- Insertion of one element into a sorted list (helper for `sortNat`). -/
def insertNat (x : Nat) : List Nat → List Nat
  | [] => [x]
  | y :: ys => if x ≤ y then x :: y :: ys else y :: insertNat x ys

/-- Ascending sort (models `Vec::sort_unstable` on `usize`). -/
def sortNat : List Nat → List Nat
  | [] => []
  | x :: xs => insertNat x (sortNat xs)

/-- Removal of consecutive duplicates (models `Vec::dedup`). -/
def dedupAdj : List Nat → List Nat
  | [] => []
  | [x] => [x]
  | x :: y :: rest => if x = y then dedupAdj (y :: rest) else x :: dedupAdj (y :: rest)

/-- The main query loop of `utf16_index_bytes_slice`, one step per query
offset.  State: `entries` is the not-yet-consumed tail of the char
iterator, `res` the `residual_match` cache.  `sLen` is `s.len()`;
`totalU16` is the value `total_u16_offset` holds whenever it is read
(both reads — case 1 and case 4 — happen after the char iterator has
been fully consumed, so it equals the UTF-16 length of `s`). -/
def sliceLoop (sLen totalU16 : Nat) :
    List (Nat × Nat × Nat) → Option (Nat × Nat) → List Nat → List (Nat × Nat)
  | _, _, [] => []
  | entries, res, q :: rest =>
    -- Case 1: exactly at the end: push and break (drops any later indices)
    if q = sLen then [(q, totalU16)]
    else
      match res with
      | some (validUntil, lastU16) =>
        if q < validUntil then
          -- Case 2: covered by the residual cache
          (q, lastU16) :: sliceLoop sLen totalU16 entries res rest
        else
          match findEntry entries q with
          | some ((byteIdx, ch8Len, u16Off), entries2) =>
            -- Case 3: found the exact or the next valid index
            (q, u16Off) :: sliceLoop sLen totalU16 entries2
              (if byteIdx > q then some (byteIdx + ch8Len, u16Off) else none) rest
          | none =>
            -- Case 4: iterator exhausted: flush remaining indices
            (q, totalU16) :: rest.map (fun r => (r, totalU16))
      | none =>
        match findEntry entries q with
        | some ((byteIdx, ch8Len, u16Off), entries2) =>
          (q, u16Off) :: sliceLoop sLen totalU16 entries2
            (if byteIdx > q then some (byteIdx + ch8Len, u16Off) else none) rest
        | none => (q, totalU16) :: rest.map (fun r => (r, totalU16))

/-- `strops.rs::utf16_index_bytes_slice`: sort, de-duplicate, then run the
query loop over the char iterator. -/
def utf16_index_bytes_slice (s : List Char) (indices : List Nat) : List (Nat × Nat) :=
  sliceLoop (byteLen s) (utf16Len s) (charEntries s 0 0) none (dedupAdj (sortNat indices))

-- sanity checks of the embedding against the spec's worked example
example : utf16_index_bytes_slice ['x', 'x', '😀'] [0, 1, 2, 3, 4, 5, 6] =
    [(0, 0), (1, 1), (2, 2), (3, 4), (4, 4), (5, 4), (6, 4)] := by decide

example : utf16_index_bytes_slice ['😀'] [1] = [(1, 2)] := by decide

example : utf16_index_bytes_slice ['😀', '😁'] [1, 5] = [(1, 2), (5, 2)] := by decide

example : utf16_index_bytes_slice ['😀', '😁'] [5] = [(5, 4)] := by decide

example : utf16_index_bytes_slice ['a', 'b'] [5] = [(5, 2)] := by decide

/-- C3: on `s = "xx😀"` the batch translation of byte offsets `0..=6`
yields exactly `(0,0),(1,1),(2,2),(3,4),(4,4),(5,4),(6,4)`. -/
theorem claim_c3 :
    utf16_index_bytes_slice ['x', 'x', '😀'] [0, 1, 2, 3, 4, 5, 6] =
      [(0, 0), (1, 1), (2, 2), (3, 4), (4, 4), (5, 4), (6, 4)] := by decide

/-- C5 (code bug): the function's own doc comment ("Panics if an index
is outside of the string") and the spec demand that an out-of-range
offset fail loudly; the code instead silently clamps it: on `"ab"`
(byte length 2) the offset 5 is mapped to the total UTF-16 length 2
without any panic. -/
theorem claim_c5 : utf16_index_bytes_slice ['a', 'b'] [5] = [(5, 2)] := by decide

/-- C2 counterexample: byte offset 1 falls strictly inside the single
code point of `"😀"`, whose start has UTF-16 offset 0, yet the
translation maps it to 2 (the UTF-16 offset of the following boundary,
here the end of the string) — not to the code point's start. -/
theorem claim_c2_counterexample :
    utf16_index_bytes_slice ['😀'] [1] = [(1, 2)] ∧
    ¬ IsBoundary ['😀'] 1 ∧ u16Floor ['😀'] 1 = 0 := by decide

/-- C4 counterexample: on `"😀😁"`, translating the batch `[1, 5]`
gives `(5, 2)` for offset 5, while translating `[5]` alone gives
`(5, 4)` — the singleton call does not agree with the batched call. -/
theorem claim_c4_counterexample :
    utf16_index_bytes_slice ['😀', '😁'] [1, 5] = [(1, 2), (5, 2)] ∧
    utf16_index_bytes_slice ['😀', '😁'] [5] = [(5, 4)] := by decide

/-! ### Boundary structure lemmas for the batch translator -/

theorem charLenUtf8_pos (c : Char) : 1 ≤ charLenUtf8 c := by
  unfold charLenUtf8
  repeat' split
  all_goals omega

/-- Boundary recursion: a positive offset is a boundary of `c :: cs`
iff it covers `c` and the rest is a boundary of `cs`. -/
theorem isBoundary_cons {c : Char} {cs : List Char} {i : Nat} :
    IsBoundary (c :: cs) i ↔ i = 0 ∨ (charLenUtf8 c ≤ i ∧ IsBoundary cs (i - charLenUtf8 c)) := by
  cases i with
  | zero => simp [IsBoundary, takeBytes]
  | succ j =>
    simp only [IsBoundary, takeBytes]
    by_cases h : charLenUtf8 c ≤ j + 1
    · simp [h]
    · simp [h]

theorem isBoundary_zero (s : List Char) : IsBoundary s 0 := by
  cases s <;> simp [IsBoundary, takeBytes]

theorem byteLen_cons (c : Char) (cs : List Char) :
    byteLen (c :: cs) = charLenUtf8 c + byteLen cs := by simp [byteLen]

theorem utf16Len_cons (c : Char) (cs : List Char) :
    utf16Len (c :: cs) = charLenUtf16 c + utf16Len cs := by simp [utf16Len]

theorem isBoundary_byteLen : ∀ s : List Char, IsBoundary s (byteLen s) := by
  intro s
  induction s with
  | nil => exact isBoundary_zero []
  | cons c cs IH =>
    rw [byteLen_cons, isBoundary_cons]
    right
    exact ⟨by omega, by simpa using IH⟩

theorem isBoundary_le_byteLen : ∀ (s : List Char) (q : Nat), IsBoundary s q → q ≤ byteLen s := by
  intro s
  induction s with
  | nil =>
    intro q h
    cases q with
    | zero => simp
    | succ j => exact absurd h (by simp [IsBoundary, takeBytes])
  | cons c cs IH =>
    intro q h
    rcases isBoundary_cons.mp h with rfl | ⟨h1, h2⟩
    · omega
    · have := IH _ h2
      have hb : byteLen (c :: cs) = charLenUtf8 c + byteLen cs := by simp [byteLen]
      omega

theorem nextBoundary_boundary_eq : ∀ (s : List Char) (q : Nat), IsBoundary s q →
    nextBoundary s q = q := by
  intro s
  induction s with
  | nil =>
    intro q h
    cases q with
    | zero => rfl
    | succ j => exact absurd h (by simp [IsBoundary, takeBytes])
  | cons c cs IH =>
    intro q h
    rcases isBoundary_cons.mp h with rfl | ⟨h1, h2⟩
    · rfl
    · unfold nextBoundary
      have hpos := charLenUtf8_pos c
      by_cases h0 : q = 0
      · simp [h0]
      · rw [if_neg h0]
        by_cases hle : q ≤ charLenUtf8 c
        · have : q = charLenUtf8 c := by omega
          simp [hle, this]
        · rw [if_neg hle, IH _ h2]
          omega

theorem nextBoundary_le_byteLen : ∀ (s : List Char) (q : Nat),
    nextBoundary s q ≤ byteLen s := by
  intro s
  induction s with
  | nil => intro q; simp [nextBoundary, byteLen]
  | cons c cs IH =>
    intro q
    unfold nextBoundary
    rw [byteLen_cons]
    by_cases h0 : q = 0
    · simp [h0]
    · rw [if_neg h0]
      by_cases hle : q ≤ charLenUtf8 c
      · simp [hle]
      · rw [if_neg hle]
        have := IH (q - charLenUtf8 c)
        omega

theorem le_nextBoundary : ∀ (s : List Char) (q : Nat), q ≤ byteLen s →
    q ≤ nextBoundary s q := by
  intro s
  induction s with
  | nil =>
    intro q h
    simp [byteLen] at h
    simp [h, nextBoundary]
  | cons c cs IH =>
    intro q h
    unfold nextBoundary
    by_cases h0 : q = 0
    · omega
    · rw [if_neg h0]
      by_cases hle : q ≤ charLenUtf8 c
      · simp [hle]
      · rw [if_neg hle]
        rw [byteLen_cons] at h
        have := IH (q - charLenUtf8 c) (by omega)
        omega

theorem nextBoundary_isBoundary : ∀ (s : List Char) (q : Nat),
    IsBoundary s (nextBoundary s q) := by
  intro s
  induction s with
  | nil => intro q; exact isBoundary_zero []
  | cons c cs IH =>
    intro q
    unfold nextBoundary
    by_cases h0 : q = 0
    · simp only [h0, if_pos rfl]
      exact isBoundary_zero _
    · rw [if_neg h0]
      by_cases hle : q ≤ charLenUtf8 c
      · rw [if_pos hle, isBoundary_cons]
        right
        refine ⟨le_rfl, ?_⟩
        simpa using isBoundary_zero cs
      · rw [if_neg hle, isBoundary_cons]
        right
        refine ⟨by omega, ?_⟩
        have : charLenUtf8 c + nextBoundary cs (q - charLenUtf8 c) - charLenUtf8 c =
            nextBoundary cs (q - charLenUtf8 c) := by omega
        rw [this]
        exact IH _

theorem nextBoundary_mono : ∀ (s : List Char) (q r : Nat), q ≤ r →
    nextBoundary s q ≤ nextBoundary s r := by
  intro s
  induction s with
  | nil => intro q r _; simp [nextBoundary]
  | cons c cs IH =>
    intro q r hqr
    unfold nextBoundary
    by_cases hq0 : q = 0
    · simp [hq0]
    · have hr0 : ¬ r = 0 := by omega
      rw [if_neg hq0, if_neg hr0]
      by_cases hqle : q ≤ charLenUtf8 c
      · rw [if_pos hqle]
        by_cases hrle : r ≤ charLenUtf8 c
        · simp [hrle]
        · rw [if_neg hrle]
          have := le_nextBoundary cs (r - charLenUtf8 c)
          have h1 : 0 ≤ nextBoundary cs (r - charLenUtf8 c) := Nat.zero_le _
          omega
      · have hrle : ¬ r ≤ charLenUtf8 c := by omega
        rw [if_neg hqle, if_neg hrle]
        have := IH (q - charLenUtf8 c) (r - charLenUtf8 c) (by omega)
        omega

theorem nextBoundary_least : ∀ (s : List Char) (q x : Nat), IsBoundary s x → q ≤ x →
    nextBoundary s q ≤ x := by
  intro s
  induction s with
  | nil => intro q x _ _; simp [nextBoundary]
  | cons c cs IH =>
    intro q x hx hqx
    unfold nextBoundary
    by_cases hq0 : q = 0
    · simp [hq0]
    · rw [if_neg hq0]
      rcases isBoundary_cons.mp hx with rfl | ⟨h1, h2⟩
      · omega
      · by_cases hqle : q ≤ charLenUtf8 c
        · rw [if_pos hqle]
          omega
        · rw [if_neg hqle]
          have := IH (q - charLenUtf8 c) (x - charLenUtf8 c) h2 (by omega)
          omega

theorem lt_nextBoundary_of_not_boundary {s : List Char} {q : Nat} (h1 : q ≤ byteLen s)
    (h2 : ¬ IsBoundary s q) : q < nextBoundary s q := by
  have hle := le_nextBoundary s q h1
  rcases Nat.eq_or_lt_of_le hle with heq | hlt
  · exact absurd (heq ▸ nextBoundary_isBoundary s q) h2
  · exact hlt

theorem u16Floor_cons (c : Char) (cs : List Char) (i : Nat) :
    u16Floor (c :: cs) i =
      if i < charLenUtf8 c then 0
      else charLenUtf16 c + u16Floor cs (i - charLenUtf8 c) := rfl

theorem u16Ceil_cons (c : Char) (cs : List Char) (i : Nat) :
    u16Ceil (c :: cs) i =
      if i = 0 then 0
      else if i ≤ charLenUtf8 c then charLenUtf16 c
      else charLenUtf16 c + u16Ceil cs (i - charLenUtf8 c) := rfl

theorem nextBoundary_cons (c : Char) (cs : List Char) (i : Nat) :
    nextBoundary (c :: cs) i =
      if i = 0 then 0
      else if i ≤ charLenUtf8 c then charLenUtf8 c
      else charLenUtf8 c + nextBoundary cs (i - charLenUtf8 c) := rfl

theorem u16Floor_zero : ∀ s : List Char, u16Floor s 0 = 0 := by
  intro s
  cases s with
  | nil => rfl
  | cons c cs =>
    unfold u16Floor
    rw [if_pos (by have := charLenUtf8_pos c; omega)]

theorem u16Floor_byteLen : ∀ s : List Char, u16Floor s (byteLen s) = utf16Len s := by
  intro s
  induction s with
  | nil => rfl
  | cons c cs IH =>
    rw [byteLen_cons, utf16Len_cons]
    unfold u16Floor
    rw [if_neg (by omega)]
    have : charLenUtf8 c + byteLen cs - charLenUtf8 c = byteLen cs := by omega
    rw [this, IH]

/-- For a non-boundary offset, the ceiling value is the floor value at
the next boundary. -/
theorem u16Ceil_eq_floor_nextBoundary : ∀ (s : List Char) (q : Nat), q ≤ byteLen s →
    ¬ IsBoundary s q → u16Ceil s q = u16Floor s (nextBoundary s q) := by
  intro s
  induction s with
  | nil =>
    intro q h hb
    simp [byteLen] at h
    exact absurd (h ▸ isBoundary_zero []) hb
  | cons c cs IH =>
    intro q h hb
    have hq0 : ¬ q = 0 := fun h0 => hb (h0 ▸ isBoundary_zero _)
    have hpos := charLenUtf8_pos c
    unfold u16Ceil nextBoundary
    rw [if_neg hq0, if_neg hq0]
    by_cases hle : q ≤ charLenUtf8 c
    · rw [if_pos hle, if_pos hle]
      unfold u16Floor
      rw [if_neg (by omega)]
      have : charLenUtf8 c - charLenUtf8 c = 0 := by omega
      rw [this, u16Floor_zero]
      omega
    · rw [if_neg hle, if_neg hle]
      unfold u16Floor
      rw [if_neg (by have := le_nextBoundary cs (q - charLenUtf8 c); omega)]
      have hrec : charLenUtf8 c + nextBoundary cs (q - charLenUtf8 c) - charLenUtf8 c =
          nextBoundary cs (q - charLenUtf8 c) := by omega
      rw [hrec, IH (q - charLenUtf8 c) (by rw [byteLen_cons] at h; omega)]
      intro hb2
      exact hb (isBoundary_cons.mpr (Or.inr ⟨by omega, hb2⟩))

/-- Floor stability inside the gap after a boundary: at any offset
before the next boundary after `w`, the floor value is that of `w`. -/
theorem u16Floor_gap : ∀ (s : List Char) (w q : Nat), IsBoundary s w → w ≤ q →
    q < nextBoundary s (w + 1) → u16Floor s q = u16Floor s w := by
  intro s
  induction s with
  | nil =>
    intro w q _ _ hlt
    simp [nextBoundary] at hlt
  | cons c cs IH =>
    intro w q hw hwq hlt
    rcases isBoundary_cons.mp hw with rfl | ⟨h1, h2⟩
    · -- w = 0: q is below the first char's end
      have hnb : nextBoundary (c :: cs) 1 = charLenUtf8 c := by
        rw [nextBoundary_cons, if_neg (by omega), if_pos (charLenUtf8_pos c)]
      rw [hnb] at hlt
      rw [u16Floor_zero, u16Floor_cons, if_pos hlt]
    · -- w covers the first char
      have hpos := charLenUtf8_pos c
      have hnb : nextBoundary (c :: cs) (w + 1) =
          charLenUtf8 c + nextBoundary cs (w + 1 - charLenUtf8 c) := by
        rw [nextBoundary_cons, if_neg (by omega), if_neg (by omega)]
      rw [hnb] at hlt
      rw [u16Floor_cons, u16Floor_cons, if_neg (by omega), if_neg (by omega)]
      congr 1
      have harg : w + 1 - charLenUtf8 c = (w - charLenUtf8 c) + 1 := by omega
      rw [harg] at hlt
      exact IH (w - charLenUtf8 c) (q - charLenUtf8 c) h2 (by omega) (by omega)

/-- At a boundary, the floor value is the UTF-16 length of the byte
prefix. -/
theorem u16Floor_takeBytes : ∀ (s : List Char) (q : Nat) (P : List Char),
    takeBytes s q = some P → u16Floor s q = utf16Len P := by
  intro s
  induction s with
  | nil =>
    intro q P h
    cases q with
    | zero =>
      simp [takeBytes] at h
      subst h
      rfl
    | succ j => exact absurd h (by simp [takeBytes])
  | cons c cs IH =>
    intro q P h
    cases q with
    | zero =>
      simp [takeBytes] at h
      subst h
      rw [u16Floor_zero]
      rfl
    | succ j =>
      rw [takeBytes] at h
      by_cases hle : charLenUtf8 c ≤ j + 1
      · rw [if_pos hle, Option.map_eq_some'] at h
        obtain ⟨P2, hP2, rfl⟩ := h
        unfold u16Floor
        rw [if_neg (by omega), utf16Len_cons, IH _ _ hP2]
      · rw [if_neg hle] at h
        exact absurd h (by simp)

/-- Skipping entries below the target does not change the find. -/
theorem findEntry_append_lt : ∀ (D E2 : List (Nat × Nat × Nat)) (q : Nat),
    (∀ d ∈ D, d.1 < q) → findEntry (D ++ E2) q = findEntry E2 q := by
  intro D
  induction D with
  | nil => intro E2 q _; rfl
  | cons d D2 IH =>
    intro E2 q hD
    show (if q ≤ d.1 then _ else findEntry (D2 ++ E2) q) = _
    rw [if_neg (by have := hD d (by simp); omega), IH E2 q (fun e he => hD e (by simp [he]))]

/-- A successful find splits the entry list: everything before the found
entry is below the target. -/
theorem findEntry_split : ∀ (E : List (Nat × Nat × Nat)) (q : Nat) (e : Nat × Nat × Nat)
    (rest2 : List (Nat × Nat × Nat)), findEntry E q = some (e, rest2) →
    ∃ D2, E = D2 ++ e :: rest2 ∧ ∀ d ∈ D2, d.1 < q := by
  intro E
  induction E with
  | nil => intro q e r h; exact absurd h (by simp [findEntry])
  | cons e0 E2 IH =>
    intro q e r h
    rw [findEntry] at h
    by_cases hle : q ≤ e0.1
    · rw [if_pos hle] at h
      obtain ⟨rfl, rfl⟩ := Prod.mk.injEq .. ▸ (Option.some.injEq .. ▸ h)
      exact ⟨[], rfl, by simp⟩
    · rw [if_neg hle] at h
      obtain ⟨D2, hsplit, hD2⟩ := IH q e r h
      refine ⟨e0 :: D2, by simp [hsplit], ?_⟩
      intro d hd
      rcases List.mem_cons.mp hd with rfl | hd2
      · omega
      · exact hD2 d hd2

/-- Where the char-entry find lands when some code point starts at or
after the target: at the next boundary, carrying its running UTF-16
offset and its UTF-8 length. -/
theorem findEntry_charEntries_found : ∀ (s : List Char) (b u q : Nat), q ≤ byteLen s →
    nextBoundary s q < byteLen s →
    ∃ l8 rest2, findEntry (charEntries s b u) (b + q) =
      some ((b + nextBoundary s q, l8, u + u16Floor s (nextBoundary s q)), rest2) ∧
      nextBoundary s q + l8 = nextBoundary s (nextBoundary s q + 1) ∧ 1 ≤ l8 := by
  intro s
  induction s with
  | nil =>
    intro b u q hq hlt
    simp [nextBoundary, byteLen] at hlt
  | cons c cs IH =>
    intro b u q hq hlt
    have hpos := charLenUtf8_pos c
    by_cases hq0 : q = 0
    · subst hq0
      refine ⟨charLenUtf8 c, charEntries cs (b + charLenUtf8 c) (u + charLenUtf16 c), ?_, ?_, hpos⟩
      · show (if b + 0 ≤ b then _ else _) = _
        rw [if_pos (by omega)]
        show some ((b, charLenUtf8 c, u), _) = _
        have h1 : nextBoundary (c :: cs) 0 = 0 := rfl
        rw [h1, u16Floor_zero]
        simp
      · have h1 : nextBoundary (c :: cs) 0 = 0 := rfl
        rw [h1, nextBoundary_cons, if_neg (by omega), if_pos hpos]
        omega
    · have hskip : findEntry (charEntries (c :: cs) b u) (b + q) =
          findEntry (charEntries cs (b + charLenUtf8 c) (u + charLenUtf16 c)) (b + q) := by
        show (if b + q ≤ b then _ else _) = _
        rw [if_neg (by omega)]
      rw [hskip]
      rw [byteLen_cons] at hq hlt
      by_cases hle : q ≤ charLenUtf8 c
      · -- lands exactly on the second code point's start
        have hnb : nextBoundary (c :: cs) q = charLenUtf8 c := by
          rw [nextBoundary_cons, if_neg hq0, if_pos hle]
        rw [hnb] at hlt ⊢
        have hcs : 0 < byteLen cs := by omega
        have harg : b + q ≤ b + charLenUtf8 c := by omega
        have hzero0 : nextBoundary cs 0 = 0 := by cases cs <;> simp [nextBoundary]
        obtain ⟨l8, rest2, hfind, hnb2, hl8⟩ := IH (b + charLenUtf8 c) (u + charLenUtf16 c) 0
          (by omega) (by omega)
        -- the found entry is the head of the tail entries
        have hzero : nextBoundary cs 0 = 0 := by cases cs <;> simp [nextBoundary]
        rw [hzero] at hfind hnb2
        rw [Nat.add_zero] at hfind
        refine ⟨l8, rest2, ?_, ?_, hl8⟩
        · -- adjust the target: find at b+q equals find at (b+l8c)+0
          have hfind2 : findEntry (charEntries cs (b + charLenUtf8 c) (u + charLenUtf16 c))
              (b + q) = findEntry (charEntries cs (b + charLenUtf8 c) (u + charLenUtf16 c))
              (b + charLenUtf8 c) := by
            cases cs with
            | nil => rfl
            | cons c2 cs2 =>
              show (if b + q ≤ b + charLenUtf8 c then _ else _) =
                (if b + charLenUtf8 c ≤ b + charLenUtf8 c then _ else _)
              rw [if_pos harg, if_pos le_rfl]
          rw [hfind2, hfind, u16Floor_zero, Nat.add_zero]
          have hfl : u16Floor (c :: cs) (charLenUtf8 c) = charLenUtf16 c := by
            rw [u16Floor_cons, if_neg (by omega)]
            have : charLenUtf8 c - charLenUtf8 c = 0 := by omega
            rw [this, u16Floor_zero]
            omega
          rw [hfl]
        · rw [Nat.zero_add] at hnb2
          rw [nextBoundary_cons, if_neg (by omega), if_neg (by omega)]
          have : charLenUtf8 c + 1 - charLenUtf8 c = 1 := by omega
          rw [this, ← hnb2]
      · -- strictly inside the tail
        have hnb : nextBoundary (c :: cs) q =
            charLenUtf8 c + nextBoundary cs (q - charLenUtf8 c) := by
          rw [nextBoundary_cons, if_neg hq0, if_neg hle]
        rw [hnb] at hlt ⊢
        obtain ⟨l8, rest2, hfind, hnb2, hl8⟩ := IH (b + charLenUtf8 c) (u + charLenUtf16 c)
          (q - charLenUtf8 c) (by omega) (by omega)
        have harg : b + charLenUtf8 c + (q - charLenUtf8 c) = b + q := by omega
        rw [harg] at hfind
        refine ⟨l8, rest2, ?_, ?_, hl8⟩
        · rw [hfind]
          have hfl : u16Floor (c :: cs) (charLenUtf8 c + nextBoundary cs (q - charLenUtf8 c)) =
              charLenUtf16 c + u16Floor cs (nextBoundary cs (q - charLenUtf8 c)) := by
            rw [u16Floor_cons, if_neg (by omega)]
            have : charLenUtf8 c + nextBoundary cs (q - charLenUtf8 c) - charLenUtf8 c =
                nextBoundary cs (q - charLenUtf8 c) := by omega
            rw [this]
          rw [hfl]
          have : b + charLenUtf8 c + nextBoundary cs (q - charLenUtf8 c) =
              b + (charLenUtf8 c + nextBoundary cs (q - charLenUtf8 c)) := by omega
          rw [this]
          have : u + charLenUtf16 c + u16Floor cs (nextBoundary cs (q - charLenUtf8 c)) =
              u + (charLenUtf16 c + u16Floor cs (nextBoundary cs (q - charLenUtf8 c))) := by
            omega
          rw [this]
        · rw [nextBoundary_cons, if_neg (by omega), if_neg (by omega)]
          have : charLenUtf8 c + nextBoundary cs (q - charLenUtf8 c) + 1 - charLenUtf8 c =
              nextBoundary cs (q - charLenUtf8 c) + 1 := by omega
          rw [this]
          omega

/-- When no code point starts at or after the target, the char-entry
find is exhausted. -/
theorem findEntry_charEntries_none : ∀ (s : List Char) (b u q : Nat),
    nextBoundary s q = byteLen s → 1 ≤ q →
    findEntry (charEntries s b u) (b + q) = none := by
  intro s
  induction s with
  | nil => intro b u q _ _; rfl
  | cons c cs IH =>
    intro b u q hnb hq1
    have hpos := charLenUtf8_pos c
    rw [nextBoundary_cons, if_neg (by omega), byteLen_cons] at hnb
    have hskip : findEntry (charEntries (c :: cs) b u) (b + q) =
        findEntry (charEntries cs (b + charLenUtf8 c) (u + charLenUtf16 c)) (b + q) := by
      show (if b + q ≤ b then _ else _) = _
      rw [if_neg (by omega)]
    rw [hskip]
    by_cases hle : q ≤ charLenUtf8 c
    · rw [if_pos hle] at hnb
      have : byteLen cs = 0 := by omega
      have hnil : cs = [] := by
        cases cs with
        | nil => rfl
        | cons c2 cs2 =>
          rw [byteLen_cons] at this
          have := charLenUtf8_pos c2
          omega
      subst hnil
      rfl
    · rw [if_neg hle] at hnb
      have harg : b + q = (b + charLenUtf8 c) + (q - charLenUtf8 c) := by omega
      rw [harg]
      exact IH _ _ _ (by omega) (by omega)

theorem insertNat_mem : ∀ (l : List Nat) (y a : Nat), a ∈ insertNat y l ↔ a = y ∨ a ∈ l := by
  intro l
  induction l with
  | nil => intro y a; simp [insertNat]
  | cons z zs IH =>
    intro y a
    show a ∈ (if y ≤ z then y :: z :: zs else z :: insertNat y zs) ↔ _
    by_cases h : y ≤ z
    · rw [if_pos h]
      simp
    · rw [if_neg h]
      simp [IH]
      tauto

theorem insertNat_pairwise : ∀ (l : List Nat) (y : Nat), List.Pairwise (· ≤ ·) l →
    List.Pairwise (· ≤ ·) (insertNat y l) := by
  intro l
  induction l with
  | nil => intro y _; simp [insertNat]
  | cons z zs IH =>
    intro y h
    rw [List.pairwise_cons] at h
    obtain ⟨hz, htail⟩ := h
    show List.Pairwise _ (if y ≤ z then y :: z :: zs else z :: insertNat y zs)
    by_cases hle : y ≤ z
    · rw [if_pos hle, List.pairwise_cons]
      refine ⟨?_, List.pairwise_cons.mpr ⟨hz, htail⟩⟩
      intro a ha
      rcases List.mem_cons.mp ha with rfl | ha2
      · exact hle
      · exact le_trans hle (hz a ha2)
    · rw [if_neg hle, List.pairwise_cons]
      refine ⟨?_, IH y htail⟩
      intro a ha
      rcases (insertNat_mem zs y a).mp ha with rfl | ha2
      · omega
      · exact hz a ha2

theorem sortNat_mem : ∀ (l : List Nat) (a : Nat), a ∈ sortNat l ↔ a ∈ l := by
  intro l
  induction l with
  | nil => intro a; rfl
  | cons x xs IH =>
    intro a
    show a ∈ insertNat x (sortNat xs) ↔ _
    rw [insertNat_mem, IH]
    simp

theorem sortNat_pairwise : ∀ l : List Nat, List.Pairwise (· ≤ ·) (sortNat l) := by
  intro l
  induction l with
  | nil => simp [sortNat]
  | cons x xs IH => exact insertNat_pairwise _ x IH

theorem dedupAdj_mem : ∀ (l : List Nat) (a : Nat), a ∈ dedupAdj l ↔ a ∈ l := by
  intro l
  induction l with
  | nil => intro a; rfl
  | cons x xs IH =>
    intro a
    cases xs with
    | nil => rfl
    | cons y rest =>
      show a ∈ (if x = y then dedupAdj (y :: rest) else x :: dedupAdj (y :: rest)) ↔ _
      by_cases hxy : x = y
      · rw [if_pos hxy, IH]
        subst hxy
        simp
      · rw [if_neg hxy]
        simp only [List.mem_cons, IH a]

theorem dedupAdj_pairwise : ∀ l : List Nat, List.Pairwise (· ≤ ·) l →
    List.Pairwise (· < ·) (dedupAdj l) := by
  intro l
  induction l with
  | nil => intro _; exact List.Pairwise.nil
  | cons x xs IH =>
    intro h
    rw [List.pairwise_cons] at h
    obtain ⟨hx, htail⟩ := h
    cases xs with
    | nil => simp [dedupAdj]
    | cons y rest =>
      show List.Pairwise _ (if x = y then dedupAdj (y :: rest) else x :: dedupAdj (y :: rest))
      by_cases hxy : x = y
      · rw [if_pos hxy]
        exact IH htail
      · rw [if_neg hxy, List.pairwise_cons]
        refine ⟨?_, IH htail⟩
        intro a ha
        have ha2 := (dedupAdj_mem _ a).mp ha
        rcases List.mem_cons.mp ha2 with rfl | ha3
        · have := hx a (by simp)
          omega
        · have h1 := hx y (by simp)
          have h2 := (List.pairwise_cons.mp htail).1 a ha3
          omega

/-- Two strictly sorted lists with the same members are equal. -/
theorem strictSorted_ext : ∀ (l1 l2 : List Nat), List.Pairwise (· < ·) l1 →
    List.Pairwise (· < ·) l2 → (∀ a, a ∈ l1 ↔ a ∈ l2) → l1 = l2 := by
  intro l1
  induction l1 with
  | nil =>
    intro l2 _ _ hmem
    cases l2 with
    | nil => rfl
    | cons y ys => exact absurd ((hmem y).mpr (by simp)) (by simp)
  | cons x xs IH =>
    intro l2 h1 h2 hmem
    cases l2 with
    | nil => exact absurd ((hmem x).mp (by simp)) (by simp)
    | cons y ys =>
      rw [List.pairwise_cons] at h1 h2
      have hxy : x = y := by
        rcases List.mem_cons.mp ((hmem x).mp (by simp)) with h | h
        · exact h
        · rcases List.mem_cons.mp ((hmem y).mpr (by simp)) with h' | h'
          · omega
          · have := h1.1 y h'
            have := h2.1 x h
            omega
      subst hxy
      have htails : ∀ a, a ∈ xs ↔ a ∈ ys := by
        intro a
        constructor
        · intro ha
          have hlt := h1.1 a ha
          rcases List.mem_cons.mp ((hmem a).mp (by simp [ha])) with rfl | h
          · omega
          · exact h
        · intro ha
          have hlt := h2.1 a ha
          rcases List.mem_cons.mp ((hmem a).mpr (by simp [ha])) with rfl | h
          · omega
          · exact h
      rw [IH ys h1.2 h2.2 htails]

/-- One query step of the loop (definitional unfolding). -/
theorem sliceLoop_cons (sLen totalU16 : Nat) (entries : List (Nat × Nat × Nat))
    (res : Option (Nat × Nat)) (q : Nat) (rest : List Nat) :
    sliceLoop sLen totalU16 entries res (q :: rest) =
      (if q = sLen then [(q, totalU16)]
      else
        match res with
        | some (validUntil, lastU16) =>
          if q < validUntil then
            (q, lastU16) :: sliceLoop sLen totalU16 entries res rest
          else
            match findEntry entries q with
            | some ((byteIdx, ch8Len, u16Off), entries2) =>
              (q, u16Off) :: sliceLoop sLen totalU16 entries2
                (if byteIdx > q then some (byteIdx + ch8Len, u16Off) else none) rest
            | none =>
              (q, totalU16) :: rest.map (fun r => (r, totalU16))
        | none =>
          match findEntry entries q with
          | some ((byteIdx, ch8Len, u16Off), entries2) =>
            (q, u16Off) :: sliceLoop sLen totalU16 entries2
              (if byteIdx > q then some (byteIdx + ch8Len, u16Off) else none) rest
          | none => (q, totalU16) :: rest.map (fun r => (r, totalU16))) := rfl

/-- What the loop may return for one query offset: the prefix UTF-16
length at a boundary; at a non-boundary, the UTF-16 offset of either the
start (`u16Floor`) or the end (`u16Ceil`) of the containing code
point. -/
def ValueOk (s : List Char) (q v : Nat) : Prop :=
  (IsBoundary s q → v = u16Floor s q) ∧
  (¬ IsBoundary s q → v = u16Floor s q ∨ v = u16Ceil s q)

/-- The residual cache does not cover the query. -/
def Uncov : Option (Nat × Nat) → Nat → Prop
  | none, _ => True
  | some (vu, _), q => vu ≤ q

theorem sliceLoop_cons_end {sLen totalU16 : Nat} {entries : List (Nat × Nat × Nat)}
    {res : Option (Nat × Nat)} {q : Nat} {rest : List Nat} (h : q = sLen) :
    sliceLoop sLen totalU16 entries res (q :: rest) = [(q, totalU16)] := by
  rw [sliceLoop_cons, if_pos h]

theorem sliceLoop_cons_covered {sLen totalU16 : Nat} {entries : List (Nat × Nat × Nat)}
    {q vu lu : Nat} {rest : List Nat} (hne : ¬ q = sLen) (hcov : q < vu) :
    sliceLoop sLen totalU16 entries (some (vu, lu)) (q :: rest) =
      (q, lu) :: sliceLoop sLen totalU16 entries (some (vu, lu)) rest := by
  rw [sliceLoop_cons, if_neg hne]
  show (if q < vu then _ else _) = _
  rw [if_pos hcov]

theorem sliceLoop_cons_find {sLen totalU16 : Nat} {entries entries2 : List (Nat × Nat × Nat)}
    {res : Option (Nat × Nat)} {q byteIdx ch8Len u16Off : Nat} {rest : List Nat}
    (hne : ¬ q = sLen)
    (hres : res = none ∨ ∃ vu lu, res = some (vu, lu) ∧ ¬ q < vu)
    (hfind : findEntry entries q = some ((byteIdx, ch8Len, u16Off), entries2)) :
    sliceLoop sLen totalU16 entries res (q :: rest) =
      (q, u16Off) :: sliceLoop sLen totalU16 entries2
        (if byteIdx > q then some (byteIdx + ch8Len, u16Off) else none) rest := by
  rcases hres with rfl | ⟨vu, lu, rfl, hcov⟩
  · rw [sliceLoop_cons, if_neg hne, hfind]
  · rw [sliceLoop_cons, if_neg hne]
    show (if q < vu then _ else _) = _
    rw [if_neg hcov, hfind]

theorem sliceLoop_cons_exhausted {sLen totalU16 : Nat} {entries : List (Nat × Nat × Nat)}
    {res : Option (Nat × Nat)} {q : Nat} {rest : List Nat}
    (hne : ¬ q = sLen)
    (hres : res = none ∨ ∃ vu lu, res = some (vu, lu) ∧ ¬ q < vu)
    (hfind : findEntry entries q = none) :
    sliceLoop sLen totalU16 entries res (q :: rest) =
      (q, totalU16) :: rest.map (fun r => (r, totalU16)) := by
  rcases hres with rfl | ⟨vu, lu, rfl, hcov⟩
  · rw [sliceLoop_cons, if_neg hne, hfind]
  · rw [sliceLoop_cons, if_neg hne]
    show (if q < vu then _ else _) = _
    rw [if_neg hcov, hfind]

theorem findEntry_charEntries_found0 (s : List Char) (q : Nat) (hq : q ≤ byteLen s)
    (hlt : nextBoundary s q < byteLen s) :
    ∃ l8 rest2, findEntry (charEntries s 0 0) q =
      some ((nextBoundary s q, l8, u16Floor s (nextBoundary s q)), rest2) ∧
      nextBoundary s q + l8 = nextBoundary s (nextBoundary s q + 1) ∧ 1 ≤ l8 := by
  have := findEntry_charEntries_found s 0 0 q hq hlt
  simpa using this

theorem findEntry_charEntries_none0 (s : List Char) (q : Nat)
    (hnb : nextBoundary s q = byteLen s) (hq1 : 1 ≤ q) :
    findEntry (charEntries s 0 0) q = none := by
  have := findEntry_charEntries_none s 0 0 q hnb hq1
  simpa using this

/-- Master correctness of the query loop: on a strictly sorted in-range
query list, with the consumed entries and the residual cache consistent
with the pending queries, every query is answered and each answer is a
`ValueOk` value. -/
theorem sliceLoop_master (s : List Char) : ∀ (Q : List Nat) (D Er : List (Nat × Nat × Nat))
    (res : Option (Nat × Nat)),
    charEntries s 0 0 = D ++ Er →
    List.Pairwise (· < ·) Q →
    (∀ q ∈ Q, q ≤ byteLen s) →
    (∀ e ∈ D, ∀ q ∈ Q, Uncov res q → e.1 < q) →
    (∀ vu lu, res = some (vu, lu) → ∀ q ∈ Q, q < vu → ValueOk s q lu) →
    (sliceLoop (byteLen s) (utf16Len s) Er res Q).map Prod.fst = Q ∧
      ∀ p ∈ sliceLoop (byteLen s) (utf16Len s) Er res Q, ValueOk s p.1 p.2 := by
  intro Q
  induction Q with
  | nil =>
    intro D Er res _ _ _ _ _
    exact ⟨rfl, by intro p hp; exact absurd hp (by simp [sliceLoop])⟩
  | cons q rest IH =>
    intro D Er res hDE hsort hrange hD hR
    have hq_le : q ≤ byteLen s := hrange q (by simp)
    have hrest_gt : ∀ r ∈ rest, q < r := (List.pairwise_cons.mp hsort).1
    have hsort2 := (List.pairwise_cons.mp hsort).2
    have hrange2 : ∀ r ∈ rest, r ≤ byteLen s := fun r hr => hrange r (by simp [hr])
    by_cases hqEnd : q = byteLen s
    · -- Case 1: exactly at the end; strict sortedness forces rest = []
      have hrest : rest = [] := by
        cases rest with
        | nil => rfl
        | cons r rs =>
          have h1 := hrest_gt r (by simp)
          have h2 := hrange2 r (by simp)
          omega
      subst hrest
      rw [sliceLoop_cons_end hqEnd]
      subst hqEnd
      refine ⟨by simp, ?_⟩
      intro p hp
      rcases List.mem_singleton.mp hp with rfl
      constructor
      · intro _
        rw [u16Floor_byteLen]
      · intro hb
        exact absurd (isBoundary_byteLen s) hb
    · have hqlt : q < byteLen s := by omega
      -- the shared find path, entered whenever the residual does not
      -- cover the query
      have hFIND : (∀ e ∈ D, e.1 < q) →
          (res = none ∨ ∃ vu lu, res = some (vu, lu) ∧ ¬ q < vu) →
          (sliceLoop (byteLen s) (utf16Len s) Er res (q :: rest)).map Prod.fst = q :: rest ∧
            ∀ p ∈ sliceLoop (byteLen s) (utf16Len s) Er res (q :: rest), ValueOk s p.1 p.2 := by
        intro hDq hres
        have hglobal : findEntry (charEntries s 0 0) q = findEntry Er q := by
          rw [hDE]
          exact findEntry_append_lt D Er q hDq
        by_cases hnb : nextBoundary s q < byteLen s
        · -- find succeeds at the next boundary
          obtain ⟨l8, rest2, hfind, hnbEq, hl8⟩ := findEntry_charEntries_found0 s q hq_le hnb
          rw [hglobal] at hfind
          rw [sliceLoop_cons_find hqEnd hres hfind]
          obtain ⟨D2, hsplit, hD2⟩ := findEntry_split Er q _ _ hfind
          have hDE2 : charEntries s 0 0 =
              (D ++ (D2 ++ [(nextBoundary s q, l8, u16Floor s (nextBoundary s q))])) ++ rest2 := by
            rw [hDE, hsplit]
            simp
          have hIH := IH (D ++ (D2 ++ [(nextBoundary s q, l8, u16Floor s (nextBoundary s q))]))
            rest2
            (if nextBoundary s q > q
              then some (nextBoundary s q + l8, u16Floor s (nextBoundary s q)) else none)
            hDE2 hsort2 hrange2 ?_ ?_
          · refine ⟨by rw [List.map_cons, hIH.1], ?_⟩
            intro p hp
            rcases List.mem_cons.mp hp with rfl | hp2
            · -- the pushed pair for q itself
              constructor
              · intro hb
                rw [nextBoundary_boundary_eq s q hb]
              · intro hb
                right
                rw [u16Ceil_eq_floor_nextBoundary s q hq_le hb]
            · exact hIH.2 p hp2
          · -- the new consumed entries lie below every later query
            intro e he r hr hunc
            have hqr := hrest_gt r hr
            rcases List.mem_append.mp he with he | he
            · exact lt_trans (hDq e he) hqr
            · rcases List.mem_append.mp he with he | he
              · exact lt_trans (hD2 e he) hqr
              · rcases List.mem_singleton.mp he with rfl
                show nextBoundary s q < r
                by_cases hover : nextBoundary s q > q
                · rw [if_pos hover] at hunc
                  have : nextBoundary s q + l8 ≤ r := hunc
                  omega
                · have := le_nextBoundary s q hq_le
                  omega
          · -- the refreshed residual covers later queries correctly
            intro vu lu hsome r hr hrlt
            by_cases hover : nextBoundary s q > q
            · rw [if_pos hover] at hsome
              obtain ⟨h1, h2⟩ := Prod.mk.injEq .. ▸ (Option.some.injEq .. ▸ hsome)
              subst h1
              subst h2
              have hqr := hrest_gt r hr
              have hcsB := nextBoundary_isBoundary s q
              rcases Nat.lt_trichotomy r (nextBoundary s q) with hcase | hcase | hcase
              · -- r in the gap before the found boundary
                have hrle : r ≤ byteLen s := hrange2 r hr
                have hnbr : nextBoundary s r = nextBoundary s q :=
                  le_antisymm (nextBoundary_least s r _ hcsB (by omega))
                    (nextBoundary_mono s q r (by omega))
                have hrnotb : ¬ IsBoundary s r := by
                  intro hb
                  have := nextBoundary_boundary_eq s r hb
                  omega
                refine ⟨fun hb => absurd hb hrnotb, fun _ => Or.inr ?_⟩
                rw [u16Ceil_eq_floor_nextBoundary s r hrle hrnotb, hnbr]
              · -- r is the found boundary itself
                subst hcase
                exact ⟨fun _ => rfl, fun hb => absurd hcsB hb⟩
              · -- r strictly inside the found code point
                have hrlt2 : r < nextBoundary s (nextBoundary s q + 1) := by omega
                have hrnotb : ¬ IsBoundary s r := by
                  intro hb
                  have h1 := nextBoundary_boundary_eq s r hb
                  have h2 := nextBoundary_mono s (nextBoundary s q + 1) r (by omega)
                  omega
                refine ⟨fun hb => absurd hb hrnotb, fun _ => Or.inl ?_⟩
                rw [u16Floor_gap s (nextBoundary s q) r hcsB (by omega) hrlt2]
            · rw [if_neg hover] at hsome
              exact absurd hsome (by simp)
        · -- find exhausted: every remaining query maps to the total
          have hnbEq : nextBoundary s q = byteLen s := by
            have := nextBoundary_le_byteLen s q
            omega
          have hq1 : 1 ≤ q := by
            by_contra h
            have hq0 : q = 0 := by omega
            subst hq0
            have : nextBoundary s 0 = 0 := by cases s <;> simp [nextBoundary]
            omega
          have hfind : findEntry Er q = none := by
            rw [← hglobal]
            exact findEntry_charEntries_none0 s q hnbEq hq1
          rw [sliceLoop_cons_exhausted hqEnd hres hfind]
          have hvalue : ∀ r, q ≤ r → r ≤ byteLen s → ValueOk s r (utf16Len s) := by
            intro r hqr hrle
            by_cases hrEnd : r = byteLen s
            · subst hrEnd
              exact ⟨fun _ => (u16Floor_byteLen s).symm,
                fun hb => absurd (isBoundary_byteLen s) hb⟩
            · have hrlt : r < byteLen s := by omega
              have hnbr : nextBoundary s r = byteLen s := by
                have h1 := nextBoundary_mono s q r hqr
                have h2 := nextBoundary_le_byteLen s r
                omega
              have hrnotb : ¬ IsBoundary s r := by
                intro hb
                have := nextBoundary_boundary_eq s r hb
                omega
              refine ⟨fun hb => absurd hb hrnotb, fun _ => Or.inr ?_⟩
              rw [u16Ceil_eq_floor_nextBoundary s r hrle hrnotb, hnbr, u16Floor_byteLen]
          constructor
          · simp [Function.comp_def]
          · intro p hp
            rcases List.mem_cons.mp hp with rfl | hp2
            · exact hvalue q le_rfl hq_le
            · obtain ⟨r, hr, rfl⟩ := List.mem_map.mp hp2
              exact hvalue r (le_of_lt (hrest_gt r hr)) (hrange2 r hr)
      -- dispatch on the residual state
      rcases hres0 : res with _ | ⟨vu, lu⟩
      · subst hres0
        exact hFIND (fun e he => hD e he q (by simp) trivial) (Or.inl rfl)
      · subst hres0
        by_cases hcov : q < vu
        · -- covered by the residual cache
          rw [sliceLoop_cons_covered hqEnd hcov]
          have hIH := IH D Er (some (vu, lu)) hDE hsort2 hrange2 ?_ ?_
          · refine ⟨by rw [List.map_cons, hIH.1], ?_⟩
            intro p hp
            rcases List.mem_cons.mp hp with rfl | hp2
            · exact hR vu lu rfl q (by simp) hcov
            · exact hIH.2 p hp2
          · intro e he r hr hunc
            exact hD e he r (by simp [hr]) hunc
          · intro vu2 lu2 hsome r hr hrlt
            obtain ⟨h1, h2⟩ := Prod.mk.injEq .. ▸ (Option.some.injEq .. ▸ hsome)
            subst h1
            subst h2
            exact hR vu lu rfl r (by simp [hr]) hrlt
        · exact hFIND
            (fun e he => hD e he q (by simp) (show vu ≤ q by omega))
            (Or.inr ⟨vu, lu, rfl, hcov⟩)

/-- Corollary of the master invariant at the top-level entry point: for
in-range queries the produced first components are exactly the sorted,
de-duplicated queries, and every produced pair satisfies `ValueOk`. -/
theorem utf16_slice_valueOk (s : List Char) (indices : List Nat)
    (hrange : ∀ i ∈ indices, i ≤ byteLen s) :
    (utf16_index_bytes_slice s indices).map Prod.fst = dedupAdj (sortNat indices) ∧
      ∀ p ∈ utf16_index_bytes_slice s indices, ValueOk s p.1 p.2 := by
  have h := sliceLoop_master s (dedupAdj (sortNat indices)) [] (charEntries s 0 0) none
    (by simp)
    (dedupAdj_pairwise _ (sortNat_pairwise indices))
    (fun q hq => hrange q ((sortNat_mem indices q).mp ((dedupAdj_mem _ q).mp hq)))
    (fun e he => absurd he (List.not_mem_nil e))
    (fun vu lu hsome => Option.noConfusion hsome)
  exact h

/-- C1: for every string `s` and list of in-range byte offsets, every
queried offset `o` that is a code-point boundary of `s` is mapped by
`utf16_index_bytes_slice` to the UTF-16 length of the prefix `s[..o]`. -/
theorem claim_c1 (s : List Char) (indices : List Nat) (o : Nat)
    (hrange : ∀ i ∈ indices, i ≤ byteLen s) (ho : o ∈ indices)
    (hb : IsBoundary s o) :
    ∃ P, takeBytes s o = some P ∧
      (o, utf16Len P) ∈ utf16_index_bytes_slice s indices := by
  obtain ⟨hfst, hval⟩ := utf16_slice_valueOk s indices hrange
  obtain ⟨P, hP⟩ := Option.isSome_iff_exists.mp hb
  refine ⟨P, hP, ?_⟩
  have hoQ : o ∈ dedupAdj (sortNat indices) :=
    (dedupAdj_mem _ o).mpr ((sortNat_mem indices o).mpr ho)
  rw [← hfst] at hoQ
  obtain ⟨p, hp, hpo⟩ := List.mem_map.mp hoQ
  have hb2 : IsBoundary s p.1 := by rw [hpo]; exact hb
  have hv : p.2 = u16Floor s p.1 := (hval p hp).1 hb2
  have hfl : u16Floor s p.1 = utf16Len P := by rw [hpo]; exact u16Floor_takeBytes s o P hP
  have hpe : p = (o, utf16Len P) := Prod.ext hpo (hv.trans hfl)
  exact hpe ▸ hp

/-- C1 witness: the theorem applied to `s = "xx😀"`, queries `[6, 2]`
and the boundary offset `2`, hypotheses discharged concretely. -/
theorem claim_c1_witness :
    ∃ P, takeBytes ['x', 'x', '😀'] 2 = some P ∧
      (2, utf16Len P) ∈ utf16_index_bytes_slice ['x', 'x', '😀'] [6, 2] :=
  claim_c1 ['x', 'x', '😀'] [6, 2] 2 (by decide) (by decide) (by decide)

/-- C2 (amended): every queried in-range offset `o` that is not a
code-point boundary is mapped to a UTF-16 offset of one of the two
boundaries of the code point containing byte `o`: its start
(`u16Floor`) or the first boundary at or after `o` (`u16Ceil`) — not
always the start, as the original claim stated. -/
theorem claim_c2 (s : List Char) (indices : List Nat) (o : Nat)
    (hrange : ∀ i ∈ indices, i ≤ byteLen s) (ho : o ∈ indices)
    (hnb : ¬ IsBoundary s o) :
    ∃ v, (o, v) ∈ utf16_index_bytes_slice s indices ∧
      (v = u16Floor s o ∨ v = u16Ceil s o) := by
  obtain ⟨hfst, hval⟩ := utf16_slice_valueOk s indices hrange
  have hoQ : o ∈ dedupAdj (sortNat indices) :=
    (dedupAdj_mem _ o).mpr ((sortNat_mem indices o).mpr ho)
  rw [← hfst] at hoQ
  obtain ⟨p, hp, hpo⟩ := List.mem_map.mp hoQ
  have hnb2 : ¬ IsBoundary s p.1 := by rw [hpo]; exact hnb
  have hv := (hval p hp).2 hnb2
  refine ⟨p.2, ?_, ?_⟩
  · have hpe : p = (o, p.2) := Prod.ext hpo rfl
    exact hpe ▸ hp
  · rw [← hpo]; exact hv

/-- C2 witness: the theorem applied to `s = "😀"` and the interior
offset `1`, hypotheses discharged concretely. -/
theorem claim_c2_witness :
    ∃ v, (1, v) ∈ utf16_index_bytes_slice ['😀'] [1] ∧
      (v = u16Floor ['😀'] 1 ∨ v = u16Ceil ['😀'] 1) :=
  claim_c2 ['😀'] [1] 1 (by decide) (by decide) (by decide)

/-- C4 (amended): the translation depends only on the *set* of queried
offsets — any reordering or duplication of any input list yields the
identical result list, with no range or boundary side condition, so
translating the same set twice is idempotent — and for every in-range
query list, each queried code-point-boundary offset `o` sees the
singleton call agree with the batched call: both record the prefix
UTF-16 length `u16Floor s o`.  (For non-boundary offsets singleton/batch
agreement fails, see the counterexample.) -/
theorem claim_c4 (s : List Char) (l l2 : List Nat)
    (hmem : ∀ x, x ∈ l ↔ x ∈ l2) :
    utf16_index_bytes_slice s l = utf16_index_bytes_slice s l2 ∧
      ∀ o, (∀ i ∈ l, i ≤ byteLen s) → o ∈ l → IsBoundary s o →
        (o, u16Floor s o) ∈ utf16_index_bytes_slice s l ∧
        utf16_index_bytes_slice s [o] = [(o, u16Floor s o)] := by
  have hQ : dedupAdj (sortNat l) = dedupAdj (sortNat l2) :=
    strictSorted_ext _ _ (dedupAdj_pairwise _ (sortNat_pairwise l))
      (dedupAdj_pairwise _ (sortNat_pairwise l2))
      (fun a => by rw [dedupAdj_mem, sortNat_mem, dedupAdj_mem, sortNat_mem]; exact hmem a)
  have h1 : utf16_index_bytes_slice s l = utf16_index_bytes_slice s l2 := by
    unfold utf16_index_bytes_slice
    rw [hQ]
  refine ⟨h1, ?_⟩
  intro o hrange ho hb
  obtain ⟨hfst, hval⟩ := utf16_slice_valueOk s l hrange
  have hoQ : o ∈ dedupAdj (sortNat l) :=
    (dedupAdj_mem _ o).mpr ((sortNat_mem l o).mpr ho)
  rw [← hfst] at hoQ
  obtain ⟨p, hp, hpo⟩ := List.mem_map.mp hoQ
  have hb2 : IsBoundary s p.1 := by rw [hpo]; exact hb
  have hv : p.2 = u16Floor s p.1 := (hval p hp).1 hb2
  have hpe : p = (o, u16Floor s o) := Prod.ext hpo (by rw [hv, hpo])
  have h2 : (o, u16Floor s o) ∈ utf16_index_bytes_slice s l := hpe ▸ hp
  have h3 : utf16_index_bytes_slice s [o] = [(o, u16Floor s o)] := by
    obtain ⟨hfst1, hval1⟩ := utf16_slice_valueOk s [o]
      (by intro i hi; rw [List.mem_singleton.mp hi]; exact hrange o ho)
    have hsing : dedupAdj (sortNat [o]) = [o] := rfl
    rw [hsing] at hfst1
    rcases hRe : utf16_index_bytes_slice s [o] with _ | ⟨p0, _ | ⟨q0, t2⟩⟩
    · rw [hRe] at hfst1
      simp at hfst1
    · rw [hRe] at hfst1 hval1
      have hp0 : p0.1 = o := by simpa using hfst1
      have hv0 : p0.2 = u16Floor s p0.1 :=
        (hval1 p0 (by simp)).1 (by rw [hp0]; exact hb)
      have hpe0 : p0 = (o, u16Floor s o) := Prod.ext hp0 (by rw [hv0, hp0])
      rw [hpe0]
    · rw [hRe] at hfst1
      simp at hfst1
  exact ⟨h2, h3⟩

/-- C4 witness: the theorem applied, first to `s = "😀😁"` with the
reordered non-boundary query lists `[1, 5]` and `[5, 1]`, then to
`s = "xx😀"` with the duplicated list `[2, 2, 6]` and its boundary
offset `2`, every hypothesis discharged concretely. -/
theorem claim_c4_witness :
    utf16_index_bytes_slice ['😀', '😁'] [1, 5] =
        utf16_index_bytes_slice ['😀', '😁'] [5, 1] ∧
      (2, u16Floor ['x', 'x', '😀'] 2) ∈
        utf16_index_bytes_slice ['x', 'x', '😀'] [2, 2, 6] ∧
      utf16_index_bytes_slice ['x', 'x', '😀'] [2] =
        [(2, u16Floor ['x', 'x', '😀'] 2)] :=
  ⟨(claim_c4 ['😀', '😁'] [1, 5] [5, 1] (by intro x; simp; tauto)).1,
   (claim_c4 ['x', 'x', '😀'] [2, 2, 6] [2, 2, 6] (fun x => Iff.rfl)).2 2
     (by decide) (by decide) (by decide)⟩

/-! ### Positions and spans, `error.rs::Position` / `error.rs::Span` -/

/-- `error.rs::Position`: offset / 1-based line / column.  The `end`
field of a Rust range is called `stop` here (`end` is reserved). -/
structure Position where
  offset : Nat
  line : Nat
  column : Nat
deriving DecidableEq, Repr

/-- `error.rs::Span`: a start and an end position. -/
structure Span where
  start : Position
  stop : Position
deriving DecidableEq, Repr

/-- Byte index just after the last newline of the prefix `p` (the
source computes it as `last newline byte index + 1`, or `0` when there
is no newline); `i` is the running byte index. -/
def lastNewlineEnd : List Char → Nat → Nat → Nat
  | [], _, best => best
  | c :: cs, i, best =>
    lastNewlineEnd cs (i + charLenUtf8 c) (if c = '\n' then i + 1 else best)

/-- The characters of `p` that follow its last newline. -/
def afterLastNl (p : List Char) : List Char :=
  p.foldl (fun acc c => if c = '\n' then [] else acc ++ [c]) []

/-- `error.rs::Position::from_offset`: byte-space and UTF-16-space
positions for one byte offset.  The Rust code first slices `s[..offset]`
(panic — `none` — when `offset` is not a code-point boundary), counts
`'\n'` bytes in it for the 1-based line, and measures the byte / UTF-16
distance from the last newline for the columns.  Newlines are ASCII, so
counting newline bytes equals counting newline characters. -/
def Position.from_offset (s : List Char) (offset : Nat) : Option (Position × Position) :=
  (takeBytes s offset).map fun p =>
    let line := 1 + p.count '\n'
    let newlineIdx := lastNewlineEnd p 0 0
    let colU8 := offset - newlineIdx
    let colU16 := utf16Len (afterLastNl p)
    let offsetU16 := utf16Len p
    (⟨offset, line, colU8⟩, ⟨offsetU16, line, colU16⟩)

/-- `error.rs::Position::increment_line`. -/
def Position.increment_line (p : Position) : Position :=
  { p with line := p.line + 1 }

/-- `error.rs::Span::from_offsets`: the UTF-8 and UTF-16 spans of the
half-open byte range `[a, b)`.  `none` models a panic: the source
asserts `a < b` and byte-slices at both offsets. -/
def Span.from_offsets (s : List Char) (a b : Nat) : Option (Span × Span) :=
  if a < b then
    match Position.from_offset s a, Position.from_offset s b with
    | some (start8, start16), some (end8, end16) =>
      some (⟨start8, end8.increment_line⟩, ⟨start16, end16.increment_line⟩)
    | _, _ => none
  else none

/-- The raw computed line number of byte offset `o`: one plus the number
of newlines strictly before it (the value `Position::from_offset`
computes before any increment). -/
def rawLine (s : List Char) (o : Nat) : Nat :=
  1 + ((takeBytes s o).getD []).count '\n'

example : Span.from_offsets ['a', '\n', 'b'] 0 3 =
    some (⟨⟨0, 1, 0⟩, ⟨3, 3, 1⟩⟩, ⟨⟨0, 1, 0⟩, ⟨3, 3, 1⟩⟩) := by decide

example : Span.from_offsets ['😀'] 1 4 = none := by decide

example : Span.from_offsets ['a'] 1 1 = none := by decide

/-- C7: for every span pair built by `Span::from_offsets` from `[a, b)`,
the end position's line, in both the byte-space and the UTF-16-space
span, is one greater than the raw line computed for offset `b`, while
both start positions keep the raw line computed for offset `a`. -/
theorem claim_c7 (s : List Char) (a b : Nat) (sp8 sp16 : Span)
    (h : Span.from_offsets s a b = some (sp8, sp16)) :
    sp8.stop.line = rawLine s b + 1 ∧ sp16.stop.line = rawLine s b + 1 ∧
    sp8.start.line = rawLine s a ∧ sp16.start.line = rawLine s a := by
  unfold Span.from_offsets at h
  split at h
  case isTrue hab =>
    split at h
    case h_1 s8 s16 e8 e16 hA hB =>
      rw [Position.from_offset, Option.map_eq_some'] at hA hB
      obtain ⟨pa, hpa, hfa⟩ := hA
      obtain ⟨pb, hpb, hfb⟩ := hB
      obtain ⟨rfl, rfl⟩ := Prod.mk.injEq .. ▸ hfa
      obtain ⟨rfl, rfl⟩ := Prod.mk.injEq .. ▸ hfb
      obtain ⟨rfl, rfl⟩ := Prod.mk.injEq .. ▸ (Option.some.injEq .. ▸ h)
      simp [rawLine, hpa, hpb, Position.increment_line]
    case h_2 => exact absurd h (by simp)
  case isFalse => exact absurd h (by simp)

/-- C7 witness: the theorem applied to the concrete span pair built from
`"a\nb"` over the byte range `[0, 3)`. -/
theorem claim_c7_witness :
    (⟨⟨0, 1, 0⟩, ⟨3, 3, 1⟩⟩ : Span).stop.line = rawLine ['a', '\n', 'b'] 3 + 1 ∧
    (⟨⟨0, 1, 0⟩, ⟨3, 3, 1⟩⟩ : Span).stop.line = rawLine ['a', '\n', 'b'] 3 + 1 ∧
    (⟨⟨0, 1, 0⟩, ⟨3, 3, 1⟩⟩ : Span).start.line = rawLine ['a', '\n', 'b'] 0 ∧
    (⟨⟨0, 1, 0⟩, ⟨3, 3, 1⟩⟩ : Span).start.line = rawLine ['a', '\n', 'b'] 0 :=
  claim_c7 ['a', '\n', 'b'] 0 3 _ _ (by decide)

/-- C9: `Span::from_offsets s (a..b)` panics (returns `none`) whenever
`a ≥ b` or `a` or `b` is not a code-point boundary of `s`; when `a < b`
and both endpoints are boundaries it returns a span pair. -/
theorem claim_c9 :
    (∀ (s : List Char) (a b : Nat),
      b ≤ a ∨ ¬ IsBoundary s a ∨ ¬ IsBoundary s b → Span.from_offsets s a b = none) ∧
    (∀ (s : List Char) (a b : Nat),
      a < b → IsBoundary s a → IsBoundary s b → (Span.from_offsets s a b).isSome) := by
  constructor
  · intro s a b h
    unfold Span.from_offsets
    split
    case isTrue hab =>
      rcases h with h | h | h
      · omega
      · have hx : takeBytes s a = none := by
          cases hx : takeBytes s a with
          | none => rfl
          | some p => exact absurd (by simp [IsBoundary, hx]) h
        unfold Position.from_offset
        rw [hx]
        cases takeBytes s b <;> rfl
      · have hx : takeBytes s b = none := by
          cases hx : takeBytes s b with
          | none => rfl
          | some p => exact absurd (by simp [IsBoundary, hx]) h
        unfold Position.from_offset
        rw [hx]
        cases takeBytes s a <;> rfl
    case isFalse => rfl
  · intro s a b hab ha hb
    obtain ⟨pa, hpa⟩ := Option.isSome_iff_exists.mp ha
    obtain ⟨pb, hpb⟩ := Option.isSome_iff_exists.mp hb
    unfold Span.from_offsets Position.from_offset
    rw [if_pos hab, hpa, hpb]
    rfl

/-! ### Literal unescaping, `strops.rs::unescape_impl` and helpers -/

/-- `strops.rs::StrType`: the literal quoting conventions. -/
inductive StrType where
  | Ignore | Str | RawStr | RawStrHash1 | RawStrHash2 | RawStrHash3 | RawStrHash4
deriving DecidableEq, Repr

/-- `error.rs::Unescape`: a string-literal diagnostic.  (Messages are
abbreviated; no claim depends on the message text.) -/
structure Unescape where
  message : String
  span : Span
  span_utf16 : Span
  source : Option String
deriving DecidableEq, Repr

/-- The scan inside `strops.rs::check_unescaped_quotes`: for each `"` at
byte index `idx` the source computes
`nonslash_idx = s[..idx].rfind(|ch| ch != backslash).map_or(0, |v| v + 1)`
and accepts the quote iff `(idx - nonslash_idx) % 2 == 1`.  `i` is the
running byte index and `ns1` the current `nonslash_idx`: one past the
*start* byte of the last non-backslash character (`rfind` yields a
character's start index, so a multi-byte character inflates the computed
run length by its byte length minus one — kept faithfully).  Returns the
byte range of the first bad quote. -/
def quoteScan : List Char → Nat → Nat → Option (Nat × Nat)
  | [], _, _ => none
  | c :: cs, i, ns1 =>
    if c = '"' then
      if (i - ns1) % 2 = 1 then quoteScan cs (i + 1) (i + 1)
      else some (i, i + 1)
    else if c = '\\' then quoteScan cs (i + 1) ns1
    else quoteScan cs (i + charLenUtf8 c) (i + 1)

/-- `strops.rs::check_unescaped_quotes`.  Outer `none` models a panic of
the span builder (never reached: the bad range always covers one ASCII
quote). -/
def check_unescaped_quotes (s : List Char) : Option (Except Unescape Unit) :=
  match quoteScan s 0 0 with
  | none => some (.ok ())
  | some (a, b) =>
    (Span.from_offsets s a b).map fun sp =>
      .error ⟨"unescaped quote in string", sp.1, sp.2, none⟩

/-- The escape-decoding error taxonomy of the external decoder
(`rustc_lexer::unescape::EscapeError`, re-exposed by `error.rs`). -/
inductive EscapeError where
  | loneSlash | invalidEscape | bareCarriageReturn | escapeOnlyChar
  | tooShortHexEscape | invalidCharInHexEscape | outOfRangeHexEscape
  | noBraceInUnicodeEscape | invalidCharInUnicodeEscape | emptyUnicodeEscape
  | unclosedUnicodeEscape | leadingUnderscoreUnicodeEscape | overlongUnicodeEscape
  | loneSurrogateUnicodeEscape | outOfRangeUnicodeEscape
deriving DecidableEq, Repr

/-- Value of a hexadecimal digit. -/
def hexVal (c : Char) : Option Nat :=
  if '0' ≤ c ∧ c ≤ '9' then some (c.toNat - '0'.toNat)
  else if 'a' ≤ c ∧ c ≤ 'f' then some (c.toNat - 'a'.toNat + 10)
  else if 'A' ≤ c ∧ c ≤ 'F' then some (c.toNat - 'A'.toNat + 10)
  else none

/-- Digits of a `\u{...}` escape: collects hex digits (underscores
allowed) up to the closing brace.  Returns the value and the bytes
consumed (including the brace) and the remaining input. -/
def scanUniDigits : List Char → Nat → Nat → Nat → Except EscapeError (Nat × Nat × List Char)
  | [], _, _, _ => .error .unclosedUnicodeEscape
  | c :: cs, value, nDigits, bytes =>
    if c = '}' then
      if nDigits = 0 then .error .emptyUnicodeEscape
      else if nDigits > 6 then .error .overlongUnicodeEscape
      else .ok (value, bytes + 1, cs)
    else if c = '_' then scanUniDigits cs value nDigits (bytes + 1)
    else
      match hexVal c with
      | some v => scanUniDigits cs (value * 16 + v) (nDigits + 1) (bytes + 1)
      | none => .error .invalidCharInUnicodeEscape

/-- Whitespace skipped by a backslash-newline string continuation. -/
def isSkippedWs (c : Char) : Bool :=
  c = ' ' ∨ c = '\t' ∨ c = '\n' ∨ c = '\r' ∨ c = '\x0c'

/-- Model of the external escape decoder
`rustc_lexer::unescape::unescape_str` (a collaborator crate, not part of
this repository), following the escape taxonomy the spec lists: simple
escapes, `\xNN` (ASCII range only), `\u{...}`, backslash-newline
continuation; bare `\r` and unescaped `"` rejected; first error wins.
`i` is the running byte index, `fuel` a structural bound (one unit per
consumed character, so `length` suffices; exhaustion is unreachable). -/
def unescapeStrF : Nat → List Char → Nat → Except (Nat × Nat × EscapeError) (List Char)
  | 0, _, _ => .ok []
  | _ + 1, [], _ => .ok []
  | fuel + 1, c :: cs, i =>
    if c = '\r' then .error (i, i + 1, .bareCarriageReturn)
    else if c = '"' then .error (i, i + 1, .escapeOnlyChar)
    else if c = '\\' then
      match cs with
      | [] => .error (i, i + 1, .loneSlash)
      | e :: cs2 =>
        if e = '\n' then
          -- string continuation: skip the newline and following whitespace
          let skipped := cs2.takeWhile isSkippedWs
          (unescapeStrF fuel (cs2.dropWhile isSkippedWs) (i + 2 + byteLen skipped))
        else if e = '"' then (unescapeStrF fuel cs2 (i + 2)).map ('"' :: ·)
        else if e = '\\' then (unescapeStrF fuel cs2 (i + 2)).map ('\\' :: ·)
        else if e = 'n' then (unescapeStrF fuel cs2 (i + 2)).map ('\n' :: ·)
        else if e = 'r' then (unescapeStrF fuel cs2 (i + 2)).map ('\r' :: ·)
        else if e = 't' then (unescapeStrF fuel cs2 (i + 2)).map ('\t' :: ·)
        else if e = '\x27' then (unescapeStrF fuel cs2 (i + 2)).map ('\x27' :: ·)
        else if e = '0' then (unescapeStrF fuel cs2 (i + 2)).map ('\x00' :: ·)
        else if e = 'x' then
          match cs2 with
          | [] => .error (i, i + 2, .tooShortHexEscape)
          | [_] => .error (i, i + 3, .tooShortHexEscape)
          | h1 :: h2 :: cs3 =>
            match hexVal h1, hexVal h2 with
            | some v1, some v2 =>
              if v1 * 16 + v2 > 0x7f then .error (i, i + 4, .outOfRangeHexEscape)
              else (unescapeStrF fuel cs3 (i + 4)).map (Char.ofNat (v1 * 16 + v2) :: ·)
            | _, _ => .error (i, i + 4, .invalidCharInHexEscape)
        else if e = 'u' then
          match cs2 with
          | '{' :: '_' :: _ => .error (i, i + 4, .leadingUnderscoreUnicodeEscape)
          | '{' :: cs3 =>
            match scanUniDigits cs3 0 0 0 with
            | .error err => .error (i, i + 3, err)
            | .ok (value, bytes, cs4) =>
              if 0xd800 ≤ value ∧ value ≤ 0xdfff then
                .error (i, i + 3 + bytes, .loneSurrogateUnicodeEscape)
              else if value > 0x10ffff then
                .error (i, i + 3 + bytes, .outOfRangeUnicodeEscape)
              else (unescapeStrF fuel cs4 (i + 3 + bytes)).map (Char.ofNat value :: ·)
          | _ => .error (i, i + 3, .noBraceInUnicodeEscape)
        else .error (i, i + 2, .invalidEscape)
    else (unescapeStrF fuel cs (i + charLenUtf8 c)).map (c :: ·)

/-- The decoder at sufficient fuel. -/
def unescapeStr (s : List Char) : Except (Nat × Nat × EscapeError) (List Char) :=
  unescapeStrF s.length s 0

/-- Abbreviated stand-ins for `error.rs::escape_error_message`. -/
def escapeErrorMessage (e : EscapeError) : String :=
  match e with
  | .loneSlash => "escaped backslash without continuation"
  | .invalidEscape => "invalid escape character"
  | .bareCarriageReturn => "raw carriage return encountered"
  | .escapeOnlyChar => "unescaped character that was expected to be escaped"
  | .tooShortHexEscape => "numeric character escape is too short"
  | .invalidCharInHexEscape => "invalid character in numeric escape"
  | .outOfRangeHexEscape => "character code in numeric escape is non-ascii"
  | .noBraceInUnicodeEscape => "no brace in unicode escape"
  | .invalidCharInUnicodeEscape => "non-hexadecimal value in unicode escape"
  | .emptyUnicodeEscape => "empty unicode escape"
  | .unclosedUnicodeEscape => "no closing brace in unicode escape"
  | .leadingUnderscoreUnicodeEscape => "leading underscore unicode escape"
  | .overlongUnicodeEscape => "more than 6 characters in unicode escape"
  | .loneSurrogateUnicodeEscape => "lone surrogate in unicode escape"
  | .outOfRangeUnicodeEscape => "out of bounds unicode character code"

/-- First byte index at which `pat` occurs in `s` (Rust `str::find` for
a literal pattern; a valid UTF-8 needle only matches at boundaries). -/
def strFind : List Char → List Char → Nat → Option Nat
  | [], pat, i => if pat = [] then some i else none
  | c :: cs, pat, i =>
    if pat.isPrefixOf (c :: cs) then some i else strFind cs pat (i + charLenUtf8 c)

/-- `error.rs::Unescape::from_pat` (message abbreviated). -/
def Unescape.from_pat (s : List Char) (pat : List Char) (idx : Nat) : Option Unescape :=
  (Span.from_offsets s idx (idx + byteLen pat)).map fun sp =>
    ⟨"pattern may not be contained in this string kind", sp.1, sp.2, none⟩

/-- `strops.rs::unescape_impl`.  Outer `none` models a panic of the span
builder inside error construction. -/
def unescape_impl (s : List Char) (sep : StrType) : Option (Except Unescape (List Char)) :=
  if sep = .Ignore then some (.ok s)
  else
    -- quickcheck patterns that the string must not contain
    let checkPat : Option (List Char) :=
      match sep with
      | .Ignore => none
      | .Str => none
      | .RawStr => some ['"']
      | .RawStrHash1 => some ['"', '#']
      | .RawStrHash2 => some ['"', '#', '#']
      | .RawStrHash3 => some ['"', '#', '#', '#']
      | .RawStrHash4 => some ['"', '#', '#', '#', '#']
    match checkPat with
    | some pat =>
      match strFind s pat 0 with
      | some idx => (Unescape.from_pat s pat idx).map .error
      | none => some (.ok s)   -- not `Str`, so the backslash fast path returns
    | none =>
      -- `Str`: fast path when there is no backslash at all
      if s.contains '\\' then
        match check_unescaped_quotes s with
        | none => none
        | some (.error e) => some (.error e)
        | some (.ok ()) =>
          match unescapeStr s with
          | .ok out => some (.ok out)
          | .error (a, b, e) =>
            (Span.from_offsets s a b).map fun sp =>
              .error ⟨escapeErrorMessage e, sp.1, sp.2, none⟩
      else some (.ok s)

deriving instance DecidableEq for Except

/-- Start byte offset of the diagnostic, if the result is an error. -/
def errStart {α : Type} : Option (Except Unescape α) → Option Nat
  | some (.error e) => some e.span.start.offset
  | _ => none

-- the spec's unescape round-trip example: `a\nb` decodes to a, newline, b
example : unescape_impl ['a', '\\', 'n', 'b'] .Str = some (.ok ['a', '\n', 'b']) := by decide
example : unescape_impl ['a', '\\', 'n', 'b'] .RawStr = some (.ok ['a', '\\', 'n', 'b']) := by
  decide

-- sanity: the validator measures the backslash run back to one past the
-- *start* byte of the preceding non-backslash character, so a multi-byte
-- character inflates the run: a bare quote after `😀` is accepted
-- (computed run 4 - 1 = 3, odd) while the escaped quote in `😀\"` is
-- rejected (computed run 5 - 1 = 4, even)
example : check_unescaped_quotes ['😀', '"'] = some (.ok ()) := by decide
example : errStart (check_unescaped_quotes ['😀', '\\', '"']) = some 5 := by decide

/-- C6 counterexample: the claim says unescaping `ab"cd"` with the
standard-string kind yields an error whose span starts at byte 2; the
code returns it unchanged with no error, because the string contains no
backslash and the fast path returns before the quote check runs. -/
theorem claim_c6_counterexample :
    unescape_impl ['a', 'b', '"', 'c', 'd', '"'] .Str =
      some (.ok ['a', 'b', '"', 'c', 'd', '"']) := by decide

/-- C6 (amended): the quote-validation examples hold for the validator
`check_unescaped_quotes` itself (`ab"cd"` errors at byte 2, `ab\"cd` is
fine, `ab\\"cd` errors, `ab\\\"cd` is fine); through `unescape_impl`
with the standard-string kind the three backslash-containing inputs
behave the same way, but `ab"cd"` contains no backslash and is returned
unchanged by the fast path with no error. -/
theorem claim_c6 :
    errStart (check_unescaped_quotes ['a', 'b', '"', 'c', 'd', '"']) = some 2 ∧
    check_unescaped_quotes ['a', 'b', '\\', '"', 'c', 'd'] = some (.ok ()) ∧
    errStart (check_unescaped_quotes ['a', 'b', '\\', '\\', '"', 'c', 'd']) = some 4 ∧
    check_unescaped_quotes ['a', 'b', '\\', '\\', '\\', '"', 'c', 'd'] = some (.ok ()) ∧
    unescape_impl ['a', 'b', '"', 'c', 'd', '"'] .Str =
      some (.ok ['a', 'b', '"', 'c', 'd', '"']) ∧
    unescape_impl ['a', 'b', '\\', '"', 'c', 'd'] .Str =
      some (.ok ['a', 'b', '"', 'c', 'd']) ∧
    errStart (unescape_impl ['a', 'b', '\\', '\\', '"', 'c', 'd'] .Str) = some 4 ∧
    unescape_impl ['a', 'b', '\\', '\\', '\\', '"', 'c', 'd'] .Str =
      some (.ok ['a', 'b', '\\', '"', 'c', 'd']) := by decide

/-! ### The entry points of `lib.rs`

The regex engine itself (`regex`, `regex_syntax`) is an external
collaborator: the parse/build steps are abstracted as a `buildExt`
function, and the match/replace execution over a compiled regex as
`run*` functions.  Everything else — the empty-pattern short circuit,
the flag loop, the dispatch — is translated from `lib.rs`. -/

/-- The flags accumulated by the flag loop of `lib.rs::re_build`
(applied to both the parser and the builder; only `global` is kept in
the returned state). -/
structure Flags where
  global : Bool
  caseInsensitive : Bool
  multiLine : Bool
  dotMatchesNewLine : Bool
  swapGreed : Bool
  unicode : Bool
  ignoreWhitespace : Bool
deriving DecidableEq, Repr

/-- The source's starting configuration: non-global, non-unicode. -/
def defaultFlags : Flags := ⟨false, false, false, false, false, false, false⟩

/-- One step of the flag loop; `none` models the
`panic!("unrecognized flag")` arm. -/
def applyFlag (f : Flags) (c : Char) : Option Flags :=
  if c = 'g' then some { f with global := true }
  else if c = 'i' then some { f with caseInsensitive := true }
  else if c = 'm' then some { f with multiLine := true }
  else if c = 's' then some { f with dotMatchesNewLine := true }
  else if c = 'U' then some { f with swapGreed := true }
  else if c = 'u' then some { f with unicode := true }
  else if c = 'x' then some { f with ignoreWhitespace := true }
  else none

/-- The flag loop of `lib.rs::re_build`. -/
def parseFlags : List Char → Flags → Option Flags
  | [], f => some f
  | c :: cs, f => (applyFlag f c).bind (parseFlags cs)

/-- `lib.rs::State`: compiled regex plus the global flag. -/
structure State (R : Type) where
  re : R
  global : Bool

/-- `lib.rs::re_build`: empty patterns short-circuit to `none` before
the flag loop and before any external parse/build step;  otherwise the
flags are applied (panic — outer `none` — on an unrecognized flag) and
the external parser/builder `buildExt` runs. -/
def re_build {E R : Type} (buildExt : List Char → Flags → Except E R)
    (regExp flags : List Char) : Option (Except E (Option (State R))) :=
  if regExp = [] then some (.ok none)
  else
    match parseFlags flags defaultFlags with
    | none => none
    | some f => some ((buildExt regExp f).map fun r => some ⟨r, f.global⟩)

/-- `lib.rs::MatchSer`: the list of matches (the per-match capture
records are abstract here, produced by the external matcher glue).
The source field name `matches` is a reserved word in Lean. -/
structure MatchSer (γ : Type) where
  matchList : List γ
deriving DecidableEq

/-- `lib.rs::re_find_impl`: an empty pattern yields the default
(empty-match-list) result; otherwise the matcher runs. -/
def re_find_impl {E R γ : Type} (buildExt : List Char → Flags → Except E R)
    (runCaptures : State R → List Char → List γ)
    (text regExp flags : List Char) : Option (Except E (MatchSer γ)) :=
  (re_build buildExt regExp flags).map fun r =>
    r.map fun
      | none => ⟨[]⟩
      | some st => ⟨runCaptures st text⟩

/-- `lib.rs::re_replace_impl`: an empty pattern returns the input text
unchanged; otherwise the replacement runs.  The returned JS payload is
modelled as the result string. -/
def re_replace_impl {E R : Type} (buildExt : List Char → Flags → Except E R)
    (runReplace : State R → List Char → List Char → List Char)
    (text regExp rep flags : List Char) : Option (Except E (List Char)) :=
  (re_build buildExt regExp flags).map fun r =>
    r.map fun
      | none => text
      | some st => runReplace st text rep

/-- `lib.rs::re_replace_list_impl`: an empty pattern returns the empty
string; otherwise the expansion loop runs. -/
def re_replace_list_impl {E R : Type} (buildExt : List Char → Flags → Except E R)
    (runReplaceList : State R → List Char → List Char → List Char)
    (text regExp rep flags : List Char) : Option (Except E (List Char)) :=
  (re_build buildExt regExp flags).map fun r =>
    r.map fun
      | none => []
      | some st => runReplaceList st text rep

/-- C10: for every text, replacement and valid flag string, and for
every external compiler (even one that always fails) and matcher, an
empty pattern makes the three entry points short-circuit without error:
`re_find_impl` returns an empty match list, `re_replace_impl` the input
text unchanged, and `re_replace_list_impl` the empty string. -/
theorem claim_c10 {E R γ : Type} (buildExt : List Char → Flags → Except E R)
    (runCaptures : State R → List Char → List γ)
    (runReplace runReplaceList : State R → List Char → List Char → List Char)
    (text rep flags : List Char) (f : Flags)
    (hValid : parseFlags flags defaultFlags = some f) :
    re_find_impl buildExt runCaptures text [] flags = some (.ok ⟨[]⟩) ∧
    re_replace_impl buildExt runReplace text [] rep flags = some (.ok text) ∧
    re_replace_list_impl buildExt runReplaceList text [] rep flags = some (.ok []) := by
  refine ⟨?_, ?_, ?_⟩ <;>
    simp [re_find_impl, re_replace_impl, re_replace_list_impl, re_build, Except.map]

/-- C10 witness: the theorem applied with an always-failing external
compiler, concrete text/replacement, and the valid flag string `"g"`. -/
theorem claim_c10_witness :
    parseFlags ['g'] defaultFlags = some { defaultFlags with global := true } ∧
    (re_find_impl (fun (_ : List Char) (_ : Flags) => (Except.error () : Except Unit Unit))
        (fun (_ : State Unit) (_ : List Char) => ([] : List Unit))
        ['a'] [] ['g'] = some (.ok ⟨[]⟩) ∧
      re_replace_impl (fun (_ : List Char) (_ : Flags) => (Except.error () : Except Unit Unit))
        (fun (_ : State Unit) _ _ => []) ['a'] [] ['b'] ['g'] = some (.ok ['a']) ∧
      re_replace_list_impl (fun (_ : List Char) (_ : Flags) => (Except.error () : Except Unit Unit))
        (fun (_ : State Unit) _ _ => []) ['a'] [] ['b'] ['g'] = some (.ok [])) :=
  ⟨by decide,
   claim_c10 (fun _ _ => Except.error ()) (fun _ _ => []) (fun _ _ _ => []) (fun _ _ _ => [])
     ['a'] ['b'] ['g'] { defaultFlags with global := true } (by decide)⟩

/-! ### `strops.rs::str_from_utf8_rep`

This function slices raw bytes, so it is modelled over byte lists
(`List Nat`, each element `< 256` where relevant).  `utf8Step` /
`utf8Analyze` model the result of Rust `str::from_utf8`: the length of
the longest valid prefix (`valid_up_to`) and `error_len` — `some j` for
an invalid sequence of `j` bytes, `none` for an input that ends with an
incomplete but so-far-valid sequence. -/

/-- Is `b` a UTF-8 continuation byte? -/
def contB (b : Nat) : Bool := 0x80 ≤ b ∧ b ≤ 0xbf

/-- Constraint on the second byte of a multi-byte sequence headed by
`b0` (the tightened ranges excluding overlong forms and surrogates,
exactly as in the Rust standard library validator). -/
def sndOk (b0 b1 : Nat) : Bool :=
  if b0 = 0xe0 then 0xa0 ≤ b1 ∧ b1 ≤ 0xbf
  else if b0 = 0xed then 0x80 ≤ b1 ∧ b1 ≤ 0x9f
  else if b0 = 0xf0 then 0x90 ≤ b1 ∧ b1 ≤ 0xbf
  else if b0 = 0xf4 then 0x80 ≤ b1 ∧ b1 ≤ 0x8f
  else contB b1

/-- Sequence length announced by a leading byte (`none`: not a valid
leading byte). -/
def utf8Len (b0 : Nat) : Option Nat :=
  if b0 ≤ 0x7f then some 1
  else if 0xc2 ≤ b0 ∧ b0 ≤ 0xdf then some 2
  else if 0xe0 ≤ b0 ∧ b0 ≤ 0xef then some 3
  else if 0xf0 ≤ b0 ∧ b0 ≤ 0xf4 then some 4
  else none

/-- Result of examining one sequence at the front of the input:
a complete valid sequence of `n` bytes, an invalid sequence of `j`
bytes, or an incomplete final sequence. -/
inductive StepR where
  | ok (n : Nat)
  | err (j : Nat)
  | inc
deriving DecidableEq, Repr

/-- One step of UTF-8 validation on `b0 :: rest`. -/
def utf8Step (b0 : Nat) (rest : List Nat) : StepR :=
  match utf8Len b0 with
  | none => .err 1
  | some 1 => .ok 1
  | some 2 =>
    match rest with
    | [] => .inc
    | b1 :: _ => if sndOk b0 b1 then .ok 2 else .err 1
  | some 3 =>
    match rest with
    | [] => .inc
    | b1 :: rest2 =>
      if sndOk b0 b1 then
        match rest2 with
        | [] => .inc
        | b2 :: _ => if contB b2 then .ok 3 else .err 2
      else .err 1
  | some 4 =>
    match rest with
    | [] => .inc
    | b1 :: rest2 =>
      if sndOk b0 b1 then
        match rest2 with
        | [] => .inc
        | b2 :: rest3 =>
          if contB b2 then
            match rest3 with
            | [] => .inc
            | b3 :: _ => if contB b3 then .ok 4 else .err 3
          else .err 2
      else .err 1
  | some _ => .err 1   -- `utf8Len` never returns other lengths

/-- Shift the `valid_up_to` field of an analysis result. -/
def bumpA (n : Nat) : Option (Nat × Option Nat) → Option (Nat × Option Nat)
  | none => none
  | some (vu, el) => some (vu + n, el)

/-- Model of Rust `str::from_utf8` on a byte list, fuel-structured for
kernel computability: `none` when the whole input is valid UTF-8,
otherwise `some (valid_up_to, error_len)`.  Each step consumes at least
one byte, so fuel `l.length` suffices; the fuel-exhaustion value is
unreachable at that fuel. -/
def utf8AnalyzeF : Nat → List Nat → Option (Nat × Option Nat)
  | _, [] => none
  | fuel + 1, b0 :: rest =>
    match utf8Step b0 rest with
    | .ok n => bumpA n (utf8AnalyzeF fuel (rest.drop (n - 1)))
    | .err j => some (0, some j)
    | .inc => some (0, none)
  | 0, _ :: _ => some (0, some 1)

/-- `str::from_utf8` at sufficient fuel. -/
def utf8Analyze (l : List Nat) : Option (Nat × Option Nat) := utf8AnalyzeF l.length l

/-- The byte list is entirely valid UTF-8. -/
def Utf8Valid (l : List Nat) : Prop := utf8Analyze l = none

instance (l : List Nat) : Decidable (Utf8Valid l) := by
  unfold Utf8Valid; infer_instance

/-- ASCII code of a lowercase hex digit. -/
def hexDigitChar (n : Nat) : Nat := if n < 10 then 0x30 + n else 0x57 + n

/-- The four ASCII bytes of the escape `write!(ret, "\xHH")`. -/
def escapeByte (b : Nat) : List Nat := [0x5c, 0x78, hexDigitChar (b / 16), hexDigitChar (b % 16)]

/-- Escape every byte of a list. -/
def escBytes : List Nat → List Nat
  | [] => []
  | b :: bs => escapeByte b ++ escBytes bs

/-- The replacement loop of `strops.rs::str_from_utf8_rep` (which also
subsumes the initial short-circuit: a fully valid slice is returned
unchanged).  Per iteration: push the valid prefix verbatim, then escape
`invalid_end` bytes of the remainder, where the source computes
`invalid_end = error_len.map_or(rest.len(), |elen| elen + valid_end)` —
note the `+ valid_end` applies to the already-shifted slice.  Slicing
`rest[..invalid_end]` out of range is a panic (`none`).  `fuel` is a
structural bound: each iteration consumes at least one byte, so the
byte length suffices and exhaustion (also `none`) is unreachable. -/
def reLoopF : Nat → List Nat → Option (List Nat)
  | fuel, bs =>
    match utf8Analyze bs with
    | none => some bs
    | some (vu, el) =>
      match fuel with
      | 0 => none
      | fuel2 + 1 =>
        let rest := bs.drop vu
        let invalidEnd := match el with | none => rest.length | some elen => elen + vu
        if invalidEnd ≤ rest.length then
          (reLoopF fuel2 (rest.drop invalidEnd)).map
            (fun tail => bs.take vu ++ escBytes (rest.take invalidEnd) ++ tail)
        else none

/-- `strops.rs::str_from_utf8_rep`: slice `text[start..end]` (panic —
`none` — when out of range), then run the replacement loop. -/
def str_from_utf8_rep (text : List Nat) (start stop : Nat) : Option (List Nat) :=
  if start ≤ stop ∧ stop ≤ text.length then
    reLoopF ((text.drop start).take (stop - start)).length ((text.drop start).take (stop - start))
  else none

/-- Reference behaviour, from the spec: scan left to right, keep every
maximal run of valid UTF-8 verbatim, and replace each invalid byte with
its four-character `\xHH` escape.  (`fuel`-structured like the loop;
each step consumes `valid_up_to + 1` bytes.) -/
def specRepF : Nat → List Nat → List Nat
  | fuel, l =>
    match utf8Analyze l with
    | none => l
    | some (vu, _) =>
      match fuel with
      | 0 => []
      | fuel2 + 1 => l.take vu ++ escapeByte (l.getD vu 0) ++ specRepF fuel2 (l.drop (vu + 1))

/-- The spec-level escape behaviour at sufficient fuel. -/
def specRep (l : List Nat) : List Nat := specRepF l.length l

/-- One-step unfolding of `reLoopF` (the definitional equation, with the
outer pattern wrapper reduced). -/
theorem reLoopF_unfold (fuel : Nat) (bs : List Nat) :
    reLoopF fuel bs =
      match utf8Analyze bs with
      | none => some bs
      | some (vu, el) =>
        match fuel with
        | 0 => none
        | fuel2 + 1 =>
          let rest := bs.drop vu
          let invalidEnd := match el with | none => rest.length | some elen => elen + vu
          if invalidEnd ≤ rest.length then
            (reLoopF fuel2 (rest.drop invalidEnd)).map
              (fun tail => bs.take vu ++ escBytes (rest.take invalidEnd) ++ tail)
          else none := by
  rw [reLoopF.eq_def]

/-- One-step unfolding of `specRepF`. -/
theorem specRepF_unfold (fuel : Nat) (l : List Nat) :
    specRepF fuel l =
      match utf8Analyze l with
      | none => l
      | some (vu, _) =>
        match fuel with
        | 0 => []
        | fuel2 + 1 =>
          l.take vu ++ escapeByte (l.getD vu 0) ++ specRepF fuel2 (l.drop (vu + 1)) := by
  rw [specRepF.eq_def]

-- sanity checks: the spec's mid-code-point example, and the loop's
-- buggy extra-escape path on a byte list no `&str` slice can produce
example : str_from_utf8_rep [0x61, 0xf0, 0x9f, 0x98, 0x80, 0x61] 1 2 =
    some [0x5c, 0x78, 0x66, 0x30] := by decide

example : str_from_utf8_rep [0x61, 0xff, 0x62] 0 3 =
    some ([0x61] ++ escapeByte 0xff ++ escapeByte 0x62) := by decide

example : str_from_utf8_rep [0x61, 0x61, 0x61, 0xff] 0 4 = none := by decide

example : specRep [0x61, 0xff, 0x62] = [0x61] ++ escapeByte 0xff ++ [0x62] := by decide

theorem utf8Len_range {b k : Nat} (h : utf8Len b = some k) : 1 ≤ k ∧ k ≤ 4 := by
  unfold utf8Len at h
  repeat' split at h
  all_goals simp_all
  all_goals omega

theorem sndOk_contB {a b : Nat} (hab : sndOk a b = true) : contB b = true := by
  unfold sndOk at hab
  unfold contB at hab ⊢
  repeat' split at hab
  all_goals simp_all
  all_goals omega

theorem utf8Step_eval1 {b0 : Nat} (h : utf8Len b0 = some 1) (r : List Nat) :
    utf8Step b0 r = .ok 1 := by
  unfold utf8Step
  rw [h]

theorem utf8Step_eval2 {b0 b1 : Nat} (h : utf8Len b0 = some 2) (h1 : sndOk b0 b1 = true)
    (r : List Nat) : utf8Step b0 (b1 :: r) = .ok 2 := by
  unfold utf8Step
  rw [h]
  simp [h1]

theorem utf8Step_eval3 {b0 b1 b2 : Nat} (h : utf8Len b0 = some 3) (h1 : sndOk b0 b1 = true)
    (h2 : contB b2 = true) (r : List Nat) : utf8Step b0 (b1 :: b2 :: r) = .ok 3 := by
  unfold utf8Step
  rw [h]
  simp [h1, h2]

theorem utf8Step_eval4 {b0 b1 b2 b3 : Nat} (h : utf8Len b0 = some 4) (h1 : sndOk b0 b1 = true)
    (h2 : contB b2 = true) (h3 : contB b3 = true) (r : List Nat) :
    utf8Step b0 (b1 :: b2 :: b3 :: r) = .ok 4 := by
  unfold utf8Step
  rw [h]
  simp [h1, h2, h3]

theorem utf8Step_evalInc0 {b0 k : Nat} (h : utf8Len b0 = some k) (hk : 2 ≤ k) :
    utf8Step b0 [] = .inc := by
  have hr := utf8Len_range h
  unfold utf8Step
  rw [h]
  rcases k with _ | _ | _ | _ | _ | k <;> simp_all

theorem utf8Step_evalInc1 {b0 b1 k : Nat} (h : utf8Len b0 = some k) (hk : 3 ≤ k)
    (h1 : sndOk b0 b1 = true) : utf8Step b0 [b1] = .inc := by
  have hr := utf8Len_range h
  unfold utf8Step
  rw [h]
  rcases k with _ | _ | _ | _ | _ | k <;> simp_all

theorem utf8Step_evalInc2 {b0 b1 b2 : Nat} (h : utf8Len b0 = some 4) (h1 : sndOk b0 b1 = true)
    (h2 : contB b2 = true) : utf8Step b0 [b1, b2] = .inc := by
  unfold utf8Step
  rw [h]
  simp [h1, h2]

/-- Inversion of a successful validation step. -/
theorem utf8Step_ok_inv {b0 n : Nat} {r : List Nat} (h : utf8Step b0 r = .ok n) :
    (n = 1 ∧ utf8Len b0 = some 1) ∨
    (∃ b1 t, r = b1 :: t ∧ n = 2 ∧ utf8Len b0 = some 2 ∧ sndOk b0 b1 = true) ∨
    (∃ b1 b2 t, r = b1 :: b2 :: t ∧ n = 3 ∧ utf8Len b0 = some 3 ∧ sndOk b0 b1 = true ∧
      contB b2 = true) ∨
    (∃ b1 b2 b3 t, r = b1 :: b2 :: b3 :: t ∧ n = 4 ∧ utf8Len b0 = some 4 ∧
      sndOk b0 b1 = true ∧ contB b2 = true ∧ contB b3 = true) := by
  unfold utf8Step at h
  repeat' split at h
  all_goals first
  | exact StepR.noConfusion h
  | (injection h with hn
     subst hn
     first
     | exact Or.inl ⟨rfl, by assumption⟩
     | exact Or.inr (Or.inl ⟨_, _, rfl, rfl, by assumption, by assumption⟩)
     | exact Or.inr (Or.inr (Or.inl ⟨_, _, _, rfl, rfl, by assumption, by assumption,
         by assumption⟩))
     | exact Or.inr (Or.inr (Or.inr ⟨_, _, _, _, rfl, rfl, by assumption, by assumption,
         by assumption, by assumption⟩)))

/-- Inversion of an incomplete-input step. -/
theorem utf8Step_inc_inv {b0 : Nat} {r : List Nat} (h : utf8Step b0 r = .inc) :
    (r = [] ∧ ∃ k, utf8Len b0 = some k ∧ 2 ≤ k) ∨
    (∃ b1, r = [b1] ∧ sndOk b0 b1 = true ∧ ∃ k, utf8Len b0 = some k ∧ 3 ≤ k) ∨
    (∃ b1 b2, r = [b1, b2] ∧ utf8Len b0 = some 4 ∧ sndOk b0 b1 = true ∧ contB b2 = true) := by
  unfold utf8Step at h
  repeat' split at h
  all_goals first
  | exact StepR.noConfusion h
  | exact Or.inl ⟨rfl, _, by assumption, by omega⟩
  | exact Or.inr (Or.inl ⟨_, rfl, by assumption, _, by assumption, by omega⟩)
  | exact Or.inr (Or.inr ⟨_, _, rfl, by assumption, by assumption, by assumption⟩)

theorem utf8Step_ok_bounds {b0 n : Nat} {r : List Nat} (h : utf8Step b0 r = .ok n) :
    1 ≤ n ∧ n - 1 ≤ r.length ∧ n ≤ 4 := by
  rcases utf8Step_ok_inv h with ⟨rfl, _⟩ | ⟨b1, t, rfl, rfl, _⟩ |
    ⟨b1, b2, t, rfl, rfl, _⟩ | ⟨b1, b2, b3, t, rfl, rfl, _⟩ <;> simp

theorem utf8Step_ok_append {b0 n : Nat} {r : List Nat} (h : utf8Step b0 r = .ok n)
    (t : List Nat) : utf8Step b0 (r ++ t) = .ok n := by
  rcases utf8Step_ok_inv h with ⟨rfl, h0⟩ | ⟨b1, t1, rfl, rfl, h0, h1⟩ |
    ⟨b1, b2, t1, rfl, rfl, h0, h1, h2⟩ | ⟨b1, b2, b3, t1, rfl, rfl, h0, h1, h2, h3⟩
  · exact utf8Step_eval1 h0 _
  · exact utf8Step_eval2 h0 h1 _
  · exact utf8Step_eval3 h0 h1 h2 _
  · exact utf8Step_eval4 h0 h1 h2 h3 _

theorem utf8Step_ok_take {b0 n : Nat} {r : List Nat} (h : utf8Step b0 r = .ok n)
    {m : Nat} (hm : n - 1 ≤ m) : utf8Step b0 (r.take m) = .ok n := by
  rcases utf8Step_ok_inv h with ⟨rfl, h0⟩ | ⟨b1, t1, rfl, rfl, h0, h1⟩ |
    ⟨b1, b2, t1, rfl, rfl, h0, h1, h2⟩ | ⟨b1, b2, b3, t1, rfl, rfl, h0, h1, h2, h3⟩
  · exact utf8Step_eval1 h0 _
  · rcases m with _ | m
    · omega
    · exact utf8Step_eval2 h0 h1 _
  · rcases m with _ | _ | m
    · omega
    · omega
    · exact utf8Step_eval3 h0 h1 h2 _
  · rcases m with _ | _ | _ | m
    · omega
    · omega
    · omega
    · exact utf8Step_eval4 h0 h1 h2 h3 _

theorem utf8Step_ok_cont {b0 n : Nat} {r : List Nat} (h : utf8Step b0 r = .ok n) :
    ∀ x ∈ r.take (n - 1), contB x = true := by
  rcases utf8Step_ok_inv h with ⟨rfl, h0⟩ | ⟨b1, t1, rfl, rfl, h0, h1⟩ |
    ⟨b1, b2, t1, rfl, rfl, h0, h1, h2⟩ | ⟨b1, b2, b3, t1, rfl, rfl, h0, h1, h2, h3⟩ <;>
    intro x hx <;> simp at hx
  · rcases hx with rfl; exact sndOk_contB h1
  · rcases hx with rfl | rfl
    · exact sndOk_contB h1
    · exact h2
  · rcases hx with rfl | rfl | rfl
    · exact sndOk_contB h1
    · exact h2
    · exact h3

theorem utf8Step_prefix_inc {b0 n : Nat} {r : List Nat} (h : utf8Step b0 r = .ok n) :
    ∀ j, j < n - 1 → utf8Step b0 (r.take j) = .inc := by
  rcases utf8Step_ok_inv h with ⟨rfl, h0⟩ | ⟨b1, t1, rfl, rfl, h0, h1⟩ |
    ⟨b1, b2, t1, rfl, rfl, h0, h1, h2⟩ | ⟨b1, b2, b3, t1, rfl, rfl, h0, h1, h2, h3⟩ <;>
    intro j hj
  · omega
  · rcases j with _ | j
    · exact utf8Step_evalInc0 h0 (by omega)
    · omega
  · rcases j with _ | _ | j
    · exact utf8Step_evalInc0 h0 (by omega)
    · exact utf8Step_evalInc1 h0 (by omega) h1
    · omega
  · rcases j with _ | _ | _ | j
    · exact utf8Step_evalInc0 h0 (by omega)
    · exact utf8Step_evalInc1 h0 (by omega) h1
    · exact utf8Step_evalInc2 h0 h1 h2
    · omega

theorem utf8Step_inc_cont {b0 : Nat} {r : List Nat} (h : utf8Step b0 r = .inc) :
    ∀ x ∈ r, contB x = true := by
  rcases utf8Step_inc_inv h with ⟨rfl, _⟩ | ⟨b1, rfl, h1, _⟩ | ⟨b1, b2, rfl, h0, h1, h2⟩ <;>
    intro x hx <;> simp at hx
  · rcases hx with rfl; exact sndOk_contB h1
  · rcases hx with rfl | rfl
    · exact sndOk_contB h1
    · exact h2

theorem contB_step {c : Nat} (hc : contB c = true) (rest : List Nat) :
    utf8Step c rest = .err 1 := by
  have hlen : utf8Len c = none := by
    unfold contB at hc
    unfold utf8Len
    simp at hc
    repeat' split
    all_goals simp_all
    all_goals omega
  unfold utf8Step
  rw [hlen]

theorem bumpA_eq_none {n : Nat} {x : Option (Nat × Option Nat)} :
    bumpA n x = none ↔ x = none := by
  cases x with
  | none => simp [bumpA]
  | some p => cases p; simp [bumpA]

theorem bumpA_bumpA (a b : Nat) (x : Option (Nat × Option Nat)) :
    bumpA a (bumpA b x) = bumpA (b + a) x := by
  cases x with
  | none => rfl
  | some p => cases p; simp [bumpA]; omega

/-- The analysis result does not depend on the fuel, at fuel at least
the byte length. -/
theorem utf8AnalyzeF_irrel : ∀ (f : Nat) (l : List Nat), l.length ≤ f →
    utf8AnalyzeF f l = utf8Analyze l := by
  intro f
  induction f using Nat.strong_induction_on with
  | _ f IH =>
    intro l hl
    cases l with
    | nil => cases f <;> rfl
    | cons b0 rest =>
      cases f with
      | zero => simp at hl
      | succ f2 =>
        unfold utf8Analyze
        simp only [List.length_cons, utf8AnalyzeF]
        cases h : utf8Step b0 rest with
        | ok n =>
          have hb := utf8Step_ok_bounds h
          have hlen : (rest.drop (n - 1)).length ≤ rest.length := by
            simp
          have hf2 : rest.length ≤ f2 := by simp at hl; omega
          show bumpA n (utf8AnalyzeF f2 (rest.drop (n - 1))) =
            bumpA n (utf8AnalyzeF rest.length (rest.drop (n - 1)))
          rw [IH f2 (by omega) _ (le_trans hlen hf2),
            IH rest.length (by omega) _ hlen]
        | err j => rfl
        | inc => rfl

/-- `utf8Analyze` unfolds through `utf8Step` one sequence at a time. -/
theorem analyze_cons (b0 : Nat) (rest : List Nat) :
    utf8Analyze (b0 :: rest) =
      match utf8Step b0 rest with
      | .ok n => bumpA n (utf8Analyze (rest.drop (n - 1)))
      | .err j => some (0, some j)
      | .inc => some (0, none) := by
  conv_lhs => unfold utf8Analyze
  simp only [List.length_cons, utf8AnalyzeF]
  cases h : utf8Step b0 rest with
  | ok n =>
    show bumpA n (utf8AnalyzeF rest.length (rest.drop (n - 1))) =
      bumpA n (utf8Analyze (rest.drop (n - 1)))
    rw [utf8AnalyzeF_irrel rest.length _ (by simp)]
  | err j => rfl
  | inc => rfl

/-- A valid nonempty byte list starts with one complete sequence
followed by a valid remainder. -/
theorem analyze_valid_cons {b0 : Nat} {rest : List Nat}
    (h : utf8Analyze (b0 :: rest) = none) :
    ∃ n, utf8Step b0 rest = .ok n ∧ utf8Analyze (rest.drop (n - 1)) = none := by
  rw [analyze_cons] at h
  cases hs : utf8Step b0 rest with
  | ok n =>
    rw [hs] at h
    exact ⟨n, rfl, bumpA_eq_none.mp h⟩
  | err j => rw [hs] at h; exact absurd h (by simp)
  | inc => rw [hs] at h; exact absurd h (by simp)

theorem bumpA_zero (x : Option (Nat × Option Nat)) : bumpA 0 x = x := by
  cases x with
  | none => rfl
  | some p => cases p; simp [bumpA]

/-- Analysis of a valid list followed by anything: the valid part is
consumed and the tail analysed on its own (`k` bounds the recursion). -/
theorem analyze_append_valid_aux : ∀ (k : Nat) (M : List Nat), M.length ≤ k →
    utf8Analyze M = none →
    ∀ T, utf8Analyze (M ++ T) = bumpA M.length (utf8Analyze T) := by
  intro k
  induction k with
  | zero =>
    intro M hlen _ T
    have : M = [] := List.length_eq_zero.mp (by omega)
    subst this
    simp [bumpA_zero]
  | succ k IH =>
    intro M hlen hM T
    cases M with
    | nil => simp [bumpA_zero]
    | cons b0 rest =>
      obtain ⟨n, hs, hrest⟩ := analyze_valid_cons hM
      obtain ⟨hn1, hn2, _⟩ := utf8Step_ok_bounds hs
      rw [List.cons_append, analyze_cons, utf8Step_ok_append hs T]
      show bumpA n (utf8Analyze ((rest ++ T).drop (n - 1))) = _
      rw [List.drop_append_of_le_length hn2]
      have hlen2 : (rest.drop (n - 1)).length ≤ k := by
        simp only [List.length_drop]
        simp only [List.length_cons] at hlen
        omega
      rw [IH _ hlen2 hrest T, bumpA_bumpA]
      have : (rest.drop (n - 1)).length + n = (b0 :: rest).length := by
        simp only [List.length_drop, List.length_cons]
        omega
      rw [this]

/-- Analysis of a valid list followed by anything. -/
theorem analyze_append_valid {M : List Nat} (hM : utf8Analyze M = none) (T : List Nat) :
    utf8Analyze (M ++ T) = bumpA M.length (utf8Analyze T) :=
  analyze_append_valid_aux M.length M le_rfl hM T

/-- The first sequence of a list, taken alone, is valid. -/
theorem analyze_take_valid_char {b0 n : Nat} {rest : List Nat}
    (hs : utf8Step b0 rest = .ok n) : utf8Analyze ((b0 :: rest).take n) = none := by
  obtain ⟨hn1, hn2, _⟩ := utf8Step_ok_bounds hs
  obtain ⟨m, rfl⟩ : ∃ m, n = m + 1 := ⟨n - 1, by omega⟩
  have hstep : utf8Step b0 (rest.take m) = .ok (m + 1) := by
    simpa using utf8Step_ok_take hs (le_refl (m + 1 - 1))
  show utf8Analyze (b0 :: rest.take m) = none
  rw [analyze_cons, hstep]
  show bumpA (m + 1) (utf8Analyze ((rest.take m).drop (m + 1 - 1))) = none
  have hnil : (rest.take m).drop (m + 1 - 1) = [] := by
    apply List.drop_eq_nil_of_le
    simp [List.length_take]
  rw [hnil]
  exact bumpA_eq_none.mpr rfl

/-- The spec-level replacement does not depend on the fuel, at fuel at
least the byte length. -/
theorem specRepF_irrel : ∀ (f : Nat) (l : List Nat), l.length ≤ f →
    specRepF f l = specRep l := by
  intro f
  induction f using Nat.strong_induction_on with
  | _ f IH =>
    intro l hl
    unfold specRep
    rw [specRepF_unfold, specRepF_unfold]
    cases hA : utf8Analyze l with
    | none => rfl
    | some p =>
      obtain ⟨vu, el⟩ := p
      cases l with
      | nil => exact absurd hA (by simp [utf8Analyze, utf8AnalyzeF])
      | cons c cs =>
        simp only [List.length_cons]
        cases f with
        | zero => simp at hl
        | succ f2 =>
          show (c :: cs).take vu ++ escapeByte ((c :: cs).getD vu 0) ++
              specRepF f2 ((c :: cs).drop (vu + 1)) =
            (c :: cs).take vu ++ escapeByte ((c :: cs).getD vu 0) ++
              specRepF cs.length ((c :: cs).drop (vu + 1))
          have h1 : ((c :: cs).drop (vu + 1)).length ≤ f2 := by
            simp only [List.length_drop, List.length_cons]
            simp only [List.length_cons] at hl
            omega
          have h2 : ((c :: cs).drop (vu + 1)).length ≤ cs.length := by
            simp only [List.length_drop, List.length_cons]
            omega
          rw [IH f2 (by omega) _ h1, IH cs.length (by simp at hl; omega) _ h2]

/-- The spec-level replacement unfolds one error at a time. -/
theorem specRep_eq (l : List Nat) :
    specRep l =
      match utf8Analyze l with
      | none => l
      | some (vu, _) =>
        l.take vu ++ escapeByte (l.getD vu 0) ++ specRep (l.drop (vu + 1)) := by
  conv_lhs => unfold specRep; rw [specRepF_unfold]
  cases hA : utf8Analyze l with
  | none => rfl
  | some p =>
    obtain ⟨vu, el⟩ := p
    cases l with
    | nil => exact absurd hA (by simp [utf8Analyze, utf8AnalyzeF])
    | cons c cs =>
      simp only [List.length_cons]
      show (c :: cs).take vu ++ escapeByte ((c :: cs).getD vu 0) ++
          specRepF cs.length ((c :: cs).drop (vu + 1)) = _
      rw [specRepF_irrel cs.length _ (by simp only [List.length_drop, List.length_cons]; omega)]

/-- A list of continuation bytes is escaped wholesale. -/
theorem contAll_specRep : ∀ (l : List Nat), (∀ x ∈ l, contB x = true) →
    specRep l = escBytes l := by
  intro l
  induction l with
  | nil => intro _; rfl
  | cons c cs IH =>
    intro hAll
    have hA : utf8Analyze (c :: cs) = some (0, some 1) := by
      rw [analyze_cons, contB_step (hAll c (by simp)) cs]
    rw [specRep_eq, hA]
    show (c :: cs).take 0 ++ escapeByte ((c :: cs).getD 0 0) ++ specRep cs = _
    rw [IH (fun x hx => hAll x (by simp [hx]))]
    rfl

/-- A list analysed as a lone incomplete sequence is a leader byte
followed by continuation bytes. -/
theorem analyze_inc_tail {l : List Nat} (h : utf8Analyze l = some (0, none)) :
    ∃ b0 r, l = b0 :: r ∧ ∀ x ∈ r, contB x = true := by
  cases l with
  | nil => exact absurd h (by simp [utf8Analyze, utf8AnalyzeF])
  | cons b0 r =>
    rw [analyze_cons] at h
    cases hs : utf8Step b0 r with
    | ok n =>
      rw [hs] at h
      change bumpA n (utf8Analyze (r.drop (n - 1))) = some (0, none) at h
      obtain ⟨hn1, _, _⟩ := utf8Step_ok_bounds hs
      exfalso
      cases hx : utf8Analyze (r.drop (n - 1)) with
      | none => rw [hx] at h; simp [bumpA] at h
      | some p => obtain ⟨vu, el⟩ := p; rw [hx] at h; simp [bumpA] at h; omega
    | err j => rw [hs] at h; simp at h
    | inc => exact ⟨b0, r, rfl, utf8Step_inc_cont hs⟩

/-- The shape a byte slice of a valid UTF-8 string can take: leading
continuation bytes, a valid middle, and a truncated final sequence. -/
def Shape (S : List Nat) : Prop :=
  ∃ C M T, S = C ++ M ++ T ∧ (∀ x ∈ C, contB x = true) ∧ utf8Analyze M = none ∧
    (T = [] ∨ utf8Analyze T = some (0, none))

theorem shape_nil : Shape [] :=
  ⟨[], [], [], rfl, by simp, rfl, Or.inl rfl⟩

/-- A prefix of a valid UTF-8 string is a valid part followed by a
truncated final sequence (no leading continuation bytes). -/
theorem prefix_shape_aux : ∀ (k : Nat) (L : List Nat), L.length ≤ k →
    utf8Analyze L = none → ∀ e, ∃ M T, L.take e = M ++ T ∧ utf8Analyze M = none ∧
      (T = [] ∨ utf8Analyze T = some (0, none)) := by
  intro k
  induction k with
  | zero =>
    intro L hlen _ e
    have : L = [] := List.length_eq_zero.mp (by omega)
    subst this
    exact ⟨[], [], by simp, rfl, Or.inl rfl⟩
  | succ k IH =>
    intro L hlen hL e
    cases L with
    | nil => exact ⟨[], [], by simp, rfl, Or.inl rfl⟩
    | cons b0 rest =>
      obtain ⟨n, hs, hrest⟩ := analyze_valid_cons hL
      obtain ⟨hn1, hn2, _⟩ := utf8Step_ok_bounds hs
      by_cases he : n ≤ e
      · -- the whole first sequence is inside the prefix
        have hsplit : (b0 :: rest).take e =
            (b0 :: rest).take n ++ ((b0 :: rest).drop n).take (e - n) := by
          rw [← List.take_add]
          congr 1
          omega
        have hdrop : (b0 :: rest).drop n = rest.drop (n - 1) := by
          obtain ⟨m, rfl⟩ : ∃ m, n = m + 1 := ⟨n - 1, by omega⟩
          rfl
        have hlen2 : (rest.drop (n - 1)).length ≤ k := by
          simp only [List.length_drop]
          simp only [List.length_cons] at hlen
          omega
        obtain ⟨M2, T2, hMT, hM2, hT2⟩ := IH (rest.drop (n - 1)) hlen2 hrest (e - n)
        refine ⟨(b0 :: rest).take n ++ M2, T2, ?_, ?_, hT2⟩
        · rw [hsplit, hdrop, hMT, List.append_assoc]
        · rw [analyze_append_valid (analyze_take_valid_char hs) M2, hM2]
          rfl
      · by_cases he0 : e = 0
        · subst he0
          exact ⟨[], [], by simp, rfl, Or.inl rfl⟩
        · -- the prefix cuts the first sequence
          obtain ⟨e2, rfl⟩ : ∃ e2, e = e2 + 1 := ⟨e - 1, by omega⟩
          refine ⟨[], (b0 :: rest).take (e2 + 1), by simp, rfl, Or.inr ?_⟩
          show utf8Analyze (b0 :: rest.take e2) = some (0, none)
          rw [analyze_cons, utf8Step_prefix_inc hs e2 (by omega)]

/-- A prefix of a valid UTF-8 string has the slice shape. -/
theorem prefix_shape {L : List Nat} (hL : utf8Analyze L = none) (e : Nat) :
    Shape (L.take e) := by
  obtain ⟨M, T, h1, h2, h3⟩ := prefix_shape_aux L.length L le_rfl hL e
  exact ⟨[], M, T, by simpa using h1, by simp, h2, h3⟩

/-- Any byte slice of a valid UTF-8 string has the slice shape. -/
theorem slice_shape_aux : ∀ (k : Nat) (L : List Nat), L.length ≤ k →
    utf8Analyze L = none → ∀ s m, Shape ((L.drop s).take m) := by
  intro k
  induction k with
  | zero =>
    intro L hlen _ s m
    have : L = [] := List.length_eq_zero.mp (by omega)
    subst this
    simpa using shape_nil
  | succ k IH =>
    intro L hlen hL s m
    cases L with
    | nil => simpa using shape_nil
    | cons b0 rest =>
      obtain ⟨n, hs, hrest⟩ := analyze_valid_cons hL
      obtain ⟨hn1, hn2, _⟩ := utf8Step_ok_bounds hs
      have hdrop : (b0 :: rest).drop n = rest.drop (n - 1) := by
        obtain ⟨j, rfl⟩ : ∃ j, n = j + 1 := ⟨n - 1, by omega⟩
        rfl
      have hlen2 : (rest.drop (n - 1)).length ≤ k := by
        simp only [List.length_drop]
        simp only [List.length_cons] at hlen
        omega
      by_cases hs0 : s = 0
      · subst hs0
        exact prefix_shape hL m
      · by_cases hsn : n ≤ s
        · -- the slice starts after the first sequence
          have : (b0 :: rest).drop s = ((b0 :: rest).drop n).drop (s - n) := by
            rw [List.drop_drop]
            congr 1
            omega
          rw [this, hdrop]
          exact IH (rest.drop (n - 1)) hlen2 hrest (s - n) m
        · -- the slice starts inside the first sequence
          have hsL : s ≤ n := by omega
          have htail : (b0 :: rest).drop s =
              ((b0 :: rest).take n).drop s ++ (b0 :: rest).drop n := by
            conv_lhs => rw [← List.take_append_drop n (b0 :: rest)]
            rw [List.drop_append_of_le_length]
            simp only [List.length_take, List.length_cons]
            omega
          have htake : ((b0 :: rest).drop s).take m =
              (((b0 :: rest).take n).drop s).take m ++
                ((b0 :: rest).drop n).take (m - (((b0 :: rest).take n).drop s).length) := by
            rw [htail, List.take_append_eq_append_take]
          obtain ⟨M2, T2, hMT, hM2, hT2⟩ := prefix_shape_aux (rest.drop (n - 1)).length
            (rest.drop (n - 1)) le_rfl hrest (m - (((b0 :: rest).take n).drop s).length)
          refine ⟨(((b0 :: rest).take n).drop s).take m, M2, T2, ?_, ?_, hM2, hT2⟩
          · rw [htake, hdrop, hMT, List.append_assoc]
          · -- leading bytes are continuation bytes of the first sequence
            intro x hx
            replace hx := List.mem_of_mem_take hx
            obtain ⟨s2, rfl⟩ : ∃ s2, s = s2 + 1 := ⟨s - 1, by omega⟩
            have hx2 : x ∈ rest.take (n - 1) := by
              have : ((b0 :: rest).take n).drop (s2 + 1) =
                  (rest.take (n - 1)).drop s2 := by
                obtain ⟨j, rfl⟩ : ∃ j, n = j + 1 := ⟨n - 1, by omega⟩
                simp
              rw [this] at hx
              exact List.mem_of_mem_drop hx
            exact utf8Step_ok_cont hs x hx2

/-- Any byte slice of a valid UTF-8 string has the slice shape. -/
theorem slice_shape {L : List Nat} (hL : utf8Analyze L = none) (s m : Nat) :
    Shape ((L.drop s).take m) :=
  slice_shape_aux L.length L le_rfl hL s m

theorem reLoopF_nil (f : Nat) : reLoopF f [] = some [] := by
  rw [reLoopF_unfold]
  rfl

/-- One loop iteration on a lone leading invalid byte. -/
theorem reLoopF_err1 {S : List Nat} (hA : utf8Analyze S = some (0, some 1))
    (hne : 1 ≤ S.length) (f : Nat) :
    reLoopF (f + 1) S =
      (reLoopF f (S.drop 1)).map (fun tail => escBytes (S.take 1) ++ tail) := by
  rw [reLoopF_unfold, hA]
  show (if 1 ≤ S.length then
      (reLoopF f (S.drop 1)).map (fun tail => escBytes (S.take 1) ++ tail)
    else none) = _
  rw [if_pos hne]

/-- One loop iteration on a valid part followed by a truncated final
sequence: the remainder is escaped wholesale and the loop ends. -/
theorem reLoopF_trunc {M T : List Nat} (hM : utf8Analyze M = none)
    (hT : utf8Analyze T = some (0, none)) (f : Nat) :
    reLoopF (f + 1) (M ++ T) = some (M ++ escBytes T) := by
  have hA : utf8Analyze (M ++ T) = some (M.length, none) := by
    rw [analyze_append_valid hM T, hT]
    simp [bumpA]
  rw [reLoopF_unfold, hA]
  show (if ((M ++ T).drop M.length).length ≤ ((M ++ T).drop M.length).length then
      (reLoopF f (((M ++ T).drop M.length).drop ((M ++ T).drop M.length).length)).map
        (fun tail => (M ++ T).take M.length ++
          escBytes (((M ++ T).drop M.length).take ((M ++ T).drop M.length).length) ++ tail)
    else none) = _
  rw [if_pos le_rfl, List.drop_left, List.take_left, List.drop_length, List.take_length,
    reLoopF_nil]
  simp

/-- The replacement loop, on any slice-shaped input, computes exactly
the spec-level escape behaviour (and in particular does not panic). -/
theorem reLoop_shape : ∀ (f : Nat) (S : List Nat), Shape S → S.length ≤ f →
    reLoopF f S = some (specRep S) := by
  intro f
  induction f with
  | zero =>
    intro S _ hlen
    have : S = [] := List.length_eq_zero.mp (by omega)
    subst this
    rfl
  | succ f IH =>
    intro S hS hlen
    obtain ⟨C, M, T, rfl, hC, hM, hT⟩ := hS
    cases C with
    | nil =>
      rcases hT with rfl | hT
      · have e1 : ([] ++ M) ++ [] = M := by simp
        rw [e1, reLoopF_unfold, hM, specRep_eq, hM]
      · have e1 : ([] ++ M) ++ T = M ++ T := by simp
        rw [e1, reLoopF_trunc hM hT f]
        obtain ⟨t0, tr, rfl, htr⟩ := analyze_inc_tail hT
        have hA : utf8Analyze (M ++ t0 :: tr) = some (M.length, none) := by
          rw [analyze_append_valid hM _, hT]
          simp [bumpA]
        rw [specRep_eq, hA]
        congr 1
        show M ++ escBytes (t0 :: tr) =
          (M ++ t0 :: tr).take M.length ++ escapeByte ((M ++ t0 :: tr).getD M.length 0) ++
            specRep ((M ++ t0 :: tr).drop (M.length + 1))
        have hgd : (M ++ t0 :: tr).getD M.length 0 = t0 := by
          rw [List.getD_append_right _ _ _ _ le_rfl]
          simp
        have hdr : (M ++ t0 :: tr).drop (M.length + 1) = tr := by
          rw [List.drop_append_eq_append_drop]
          have h2 : M.drop (M.length + 1) = [] := List.drop_eq_nil_of_le (by omega)
          rw [h2]
          have h3 : M.length + 1 - M.length = 1 := by omega
          rw [h3]
          rfl
        rw [List.take_left, hgd, hdr, contAll_specRep tr htr]
        rw [List.append_assoc]
        rfl
    | cons c C2 =>
      have hc : contB c = true := hC c (by simp)
      have e1 : ((c :: C2) ++ M) ++ T = c :: ((C2 ++ M) ++ T) := by simp
      rw [e1]
      have hA : utf8Analyze (c :: ((C2 ++ M) ++ T)) = some (0, some 1) := by
        rw [analyze_cons, contB_step hc]
      rw [reLoopF_err1 hA (by simp) f]
      have hshape2 : Shape ((C2 ++ M) ++ T) :=
        ⟨C2, M, T, rfl, fun x hx => hC x (by simp [hx]), hM, hT⟩
      have hIH := IH ((C2 ++ M) ++ T) hshape2
        (by simp only [List.length_cons, List.length_append] at hlen ⊢; omega)
      show (reLoopF f ((C2 ++ M) ++ T)).map
        (fun tail => escBytes ((c :: ((C2 ++ M) ++ T)).take 1) ++ tail) = _
      rw [hIH, specRep_eq (c :: ((C2 ++ M) ++ T)), hA]
      rfl

/-- C8: for every valid UTF-8 byte string and in-range byte range,
`str_from_utf8_rep` returns (never panics) the spec-level replacement —
maximal valid runs kept verbatim, each invalid byte escaped as `\xHH` —
a fully valid slice is returned verbatim, and slicing `"a😀a"` at
`1..2` yields the four characters `\xf0`. -/
theorem claim_c8 :
    (∀ (text : List Nat) (start stop : Nat), Utf8Valid text → start ≤ stop →
      stop ≤ text.length →
      str_from_utf8_rep text start stop =
        some (specRep ((text.drop start).take (stop - start)))) ∧
    (∀ bs : List Nat, Utf8Valid bs → specRep bs = bs) ∧
    str_from_utf8_rep [0x61, 0xf0, 0x9f, 0x98, 0x80, 0x61] 1 2 =
      some [0x5c, 0x78, 0x66, 0x30] := by
  refine ⟨?_, ?_, by decide⟩
  · intro text start stop hV h1 h2
    unfold str_from_utf8_rep
    rw [if_pos ⟨h1, h2⟩]
    exact reLoop_shape _ _ (slice_shape hV start (stop - start)) le_rfl
  · intro bs hV
    have hV2 : utf8Analyze bs = none := hV
    rw [specRep_eq, hV2]

/-- C8 witness: the theorem applied to the `"a😀a"` bytes at range
`1..2`, all hypotheses discharged concretely. -/
theorem claim_c8_witness :
    Utf8Valid [0x61, 0xf0, 0x9f, 0x98, 0x80, 0x61] ∧
    str_from_utf8_rep [0x61, 0xf0, 0x9f, 0x98, 0x80, 0x61] 1 2 =
      some (specRep (([0x61, 0xf0, 0x9f, 0x98, 0x80, 0x61].drop 1).take (2 - 1))) :=
  ⟨by decide, claim_c8.1 [0x61, 0xf0, 0x9f, 0x98, 0x80, 0x61] 1 2 (by decide) (by decide)
    (by decide)⟩

/-- C9 witness: the theorem applied at concrete inputs: the empty range
`[1, 1)` on `"ab"` panics, while `[0, 1)` yields a span pair. -/
theorem claim_c9_witness :
    Span.from_offsets ['a', 'b'] 1 1 = none ∧
    (Span.from_offsets ['a', 'b'] 0 1).isSome :=
  ⟨claim_c9.1 ['a', 'b'] 1 1 (Or.inl (by decide)),
   claim_c9.2 ['a', 'b'] 0 1 (by decide) (by decide) (by decide)⟩
